import Mathlib

/-!
Verification of the U-Bahn transit-network repository: graph construction
(`task_1.py`), DFS/BFS pathfinding (`task_2.py`), and deterministic weight
assignment plus Dijkstra queries (`task_3.py`).

The embedding models a networkx graph as an adjacency list keyed by node
(`task_2.py` only uses `start in graph`, node membership, and
`graph.neighbors`).  Python while-loops are embedded with an explicit fuel
argument large enough that the loop is never cut short on well-formed input
(proved where a claim needs it).
-/

namespace UBahn

/-- First-match association-list lookup, the model of a Python dict lookup
(dict keys are unique, so first match is the only match). -/
def lookupStr {β : Type} : List (String × β) → String → Option β
  | [], _ => none
  | p :: rest, s => if p.1 = s then some p.2 else lookupStr rest s

/-- A networkx graph as pickled by `task_1.py` and traversed by `task_2.py` /
`task_3.py`: an adjacency list keyed by node name. -/
structure SGraph where
  adjList : List (String × List String)

/-- The nodes of the graph (`start in graph` in Python checks this list). -/
def SGraph.nodes (g : SGraph) : List String := g.adjList.map (fun p => p.1)

/-- `graph.neighbors(v)` — the adjacency list entry for `v`. -/
def SGraph.adj (g : SGraph) (v : String) : List String :=
  (lookupStr g.adjList v).getD []

/-- Well-formedness of the adjacency structure: every listed neighbor is a
node of the graph.  (True of every networkx graph.) -/
def WFAdj (g : SGraph) : Prop := ∀ p ∈ g.adjList, ∀ w ∈ p.2, w ∈ g.nodes

instance (g : SGraph) : Decidable (WFAdj g) :=
  inferInstanceAs (Decidable (∀ p ∈ g.adjList, ∀ w ∈ p.2, w ∈ g.nodes))

/-- `u` has `v` among its neighbors. -/
def Adjacent (g : SGraph) (u v : String) : Prop := v ∈ g.adj u

instance (g : SGraph) (u v : String) : Decidable (Adjacent g u v) :=
  inferInstanceAs (Decidable (v ∈ g.adj u))

/-- `p` is a walk through `g` from `s` to `t`: nonempty, starts at `s`, ends
at `t`, consecutive elements adjacent.  (Repetitions allowed.) -/
def IsWalkFrom (g : SGraph) (s t : String) (p : List String) : Prop :=
  p.Chain' (Adjacent g) ∧ p.head? = some s ∧ p.getLast? = some t

instance (g : SGraph) (s t : String) (p : List String) :
    Decidable (IsWalkFrom g s t p) :=
  inferInstanceAs
    (Decidable (p.Chain' (Adjacent g) ∧ p.head? = some s ∧ p.getLast? = some t))

/-- Total length of all adjacency lists (twice the edge count); used only to
size the DFS fuel. -/
def totalAdj (g : SGraph) : Nat := (g.adjList.map (fun p => p.2.length)).sum

/-- The loop of `dfs_path` (`task_2.py` lines 28-42).  The stack holds
`(current_node, path_to_current_node)` pairs, head = top of stack.  A node is
marked visited only when popped; neighbors are pushed in reversed order, so in
this head-is-top representation the pushed block keeps the original neighbor
order. -/
def dfsAux (g : SGraph) (goal : String) :
    Nat → List (String × List String) → List String → Option (List String)
  | 0, _, _ => none
  | _ + 1, [], _ => none
  | fuel + 1, (current, path) :: stack, visited =>
    if current = goal then some path
    else if current ∈ visited then dfsAux g goal fuel stack visited
    else
      let visited2 := current :: visited
      let stack2 := ((g.adj current).filter (fun nb => nb ∉ visited2)).map
          (fun nb => (nb, path ++ [nb])) ++ stack
      dfsAux g goal fuel stack2 visited2

/-- `dfs_path(graph, start, goal)` from `task_2.py`.  Returns `none` when
`start` or `goal` is not in the graph, and `none` when the stack empties.
The fuel bounds the number of loop iterations; a DFS run pops at most
`1 + totalAdj g` entries, so the fuel is never exhausted. -/
def dfs_path (g : SGraph) (start goal : String) : Option (List String) :=
  if start ∈ g.nodes ∧ goal ∈ g.nodes then
    dfsAux g goal (totalAdj g + g.nodes.length + 1) [(start, [start])] []
  else none

/-- The neighbor loop of `bfs_path` (`task_2.py` lines 69-72): each not yet
visited neighbor is marked visited at enqueue time and appended to the queue
with its extended path. -/
def enqueueNbrs (path : List String) :
    List String → List String → List (String × List String) →
      List String × List (String × List String)
  | [], visited, queue => (visited, queue)
  | nb :: rest, visited, queue =>
    if nb ∈ visited then enqueueNbrs path rest visited queue
    else enqueueNbrs path rest (nb :: visited) (queue ++ [(nb, path ++ [nb])])

/-- The loop of `bfs_path` (`task_2.py` lines 62-72).  The queue holds
`(current_node, path_to_current_node)` pairs, head = front of queue. -/
def bfsAux (g : SGraph) (goal : String) :
    Nat → List (String × List String) → List String → Option (List String)
  | 0, _, _ => none
  | _ + 1, [], _ => none
  | fuel + 1, (current, path) :: queue, visited =>
    if current = goal then some path
    else
      bfsAux g goal fuel (enqueueNbrs path (g.adj current) visited queue).2
        (enqueueNbrs path (g.adj current) visited queue).1

/-- `bfs_path(graph, start, goal)` from `task_2.py`.  A node enters the queue
at most once (it is marked visited at enqueue time), so at most
`g.nodes.length` entries are ever queued and fuel `g.nodes.length + 1` is
never exhausted (proved in `bfsAux_finds`). -/
def bfs_path (g : SGraph) (start goal : String) : Option (List String) :=
  if start ∈ g.nodes ∧ goal ∈ g.nodes then
    bfsAux g goal (g.nodes.length + 1) [(start, [start])] [start]
  else none

/-! ### task_3: weighted graph queries -/

/-- Total weight of a path: sum of `graph[u][v]['weight']` over consecutive
pairs (`task_3.py` lines 131-134 and 61-64). -/
def pathCost (w : String → String → ℚ) : List String → ℚ
  | a :: b :: rest => w a b + pathCost w (b :: rest)
  | _ => 0

/-- The `edge_details` list built in `task_3.py` lines 60-64: one
`(from, to, weight)` triple per consecutive pair of the path. -/
def segs (w : String → String → ℚ) : List String → List (String × String × ℚ)
  | a :: b :: rest => (a, b, w a b) :: segs w (b :: rest)
  | _ => []

/-- All duplicate-free walks from `c` to `t` avoiding `seen` (with `c` itself
already in `seen`); fuel bounds the path length. -/
def simplePathsAux (g : SGraph) (t : String) :
    Nat → String → List String → List (List String)
  | 0, c, _ => if c = t then [[c]] else []
  | fuel + 1, c, seen =>
    (if c = t then [[c]] else []) ++
      ((g.adj c).filter (fun nb => nb ∉ seen)).flatMap
        (fun nb => (simplePathsAux g t fuel nb (nb :: seen)).map (fun p => c :: p))

/-- All simple paths from `s` to `t` in `g` (fuel `g.nodes.length` suffices
because a duplicate-free path has at most `g.nodes.length` vertices). -/
def simplePaths (g : SGraph) (s t : String) : List (List String) :=
  simplePathsAux g t g.nodes.length s [s]

/-- First path of minimal cost in a list of candidate paths. -/
def minCostBy (cost : List String → ℚ) : List (List String) → Option (List String)
  | [] => none
  | p :: rest =>
    match minCostBy cost rest with
    | none => some p
    | some q => if cost q < cost p then some q else some p

/-- Modelled from the spec: `dijkstra_shortest_path` (`task_3.py` lines 39-71)
delegates the search itself to `nx.dijkstra_path` / `nx.dijkstra_path_length`,
which are external library code not present in `src/`.  Per spec §4.4 Dijkstra
returns the path of minimal total weight ("Guarantees optimal solution for
non-negative edge weights"), modelled here as the minimum-cost simple path.
This model is faithful for non-negative weight functions, and its failure
semantics are faithful unconditionally; general theorems about weighted
results are therefore stated only in the non-negative regime.  For negative
weights the library's behavior is input-dependent (it can also abort with an
uncaught `ValueError` when a relaxation undercuts a finalized node), so the
model is relied on at a negatively-weighted input only where its value
coincides with the library's, namely the single-edge graph of
`C6_counterexample`, where the unique simple path is returned with its
negative cost.  The code present in `src/` is embedded directly: the
`NodeNotFound` exception for absent endpoints and the `NetworkXNoPath`
exception for disconnected pairs are both caught and turned into a `None`
result, and the returned triple is `(path, total_distance, edge_details)`. -/
def dijkstra_shortest_path (g : SGraph) (w : String → String → ℚ)
    (start goal : String) :
    Option (List String × ℚ × List (String × String × ℚ)) :=
  if start ∈ g.nodes ∧ goal ∈ g.nodes then
    match minCostBy (pathCost w) (simplePaths g start goal) with
    | some p => some (p, pathCost w p, segs w p)
    | none => none
  else none

/-- Round-half-to-even to an integer, the rounding used by Python `round`. -/
def roundHalfEven (x : ℚ) : ℤ :=
  if Int.fract x = 1 / 2 then 2 * round (x / 2) else round x

/-- Python `round(x, 2)`: round to two decimal places. -/
def round2 (x : ℚ) : ℚ := (roundHalfEven (100 * x) : ℚ) / 100

/-- CPython `random.uniform(a, b) = a + (b - a) * random()`. -/
def uniform (a b u : ℚ) : ℚ := a + (b - a) * u

/-- `add_random_weights` (`task_3.py` lines 12-36).  The Python `random`
module is standard-library code, modelled abstractly: `R` is the state of the
global generator, `pySeed` is `random.seed` and `pyNext` is `random.random`
(each draw lies in `[0, 1)`).  `rGlobal` is the incoming state of the global
generator, overwritten by `random.seed(seed)` before any draw; the function
returns the per-edge weights (graph copy) together with the final generator
state.  Edges are visited in the graph's own storage order. -/
def add_random_weights {R : Type} (pySeed : Int → R) (pyNext : R → ℚ × R)
    (rGlobal : R) (edges : List ((String × String) × String × String))
    (min_weight max_weight : ℚ) (seed : Int) :
    List ((String × String) × ℚ) × R :=
  edges.foldl
    (fun acc e =>
      (acc.1 ++ [(e.1, round2 (uniform min_weight max_weight (pyNext acc.2).1))],
        (pyNext acc.2).2))
    ([], pySeed seed)

/-! ### task_1: graph construction -/

/-- Node insertion as `networkx.Graph.add_edge` does it: append if absent. -/
def addNode (ns : List String) (v : String) : List String :=
  if v ∈ ns then ns else ns ++ [v]

/-- Two unordered station pairs denote the same edge of an undirected graph. -/
def sameEdge (k1 k2 : String × String) : Prop :=
  (k1.1 = k2.1 ∧ k1.2 = k2.2) ∨ (k1.1 = k2.2 ∧ k1.2 = k2.1)

instance (k1 k2 : String × String) : Decidable (sameEdge k1 k2) :=
  inferInstanceAs
    (Decidable ((k1.1 = k2.1 ∧ k1.2 = k2.2) ∨ (k1.1 = k2.2 ∧ k1.2 = k2.1)))

/-- Edge insertion as `networkx.Graph.add_edge`: if an edge between the two
endpoints exists (in either orientation) its attributes are overwritten,
otherwise a new edge is appended. -/
def updEdges :
    List ((String × String) × String × String) → String × String →
      String × String → List ((String × String) × String × String)
  | [], k, t => [(k, t)]
  | e :: rest, k, t =>
    if sameEdge e.1 k then (e.1, t) :: rest else e :: updEdges rest k t

/-- Attribute lookup for the edge between two endpoints, if present. -/
def findEdge :
    List ((String × String) × String × String) → String × String →
      Option (String × String)
  | [], _ => none
  | e :: rest, k => if sameEdge e.1 k then some e.2 else findEdge rest k

/-- The graph built by `task_1.py`: insertion-ordered node list and edge list;
each edge carries its station pair and its `(line, color)` attributes. -/
structure TGraph where
  nodes : List String
  edges : List ((String × String) × String × String)

/-- `G.add_edge(station1, station2, line=line_name, color=color)`. -/
def TGraph.addEdge (G : TGraph) (u v ln c : String) : TGraph :=
  ⟨addNode (addNode G.nodes u) v, updEdges G.edges (u, v) (ln, c)⟩

/-- The `station_lines` dict update of `task_1.py` lines 37-43 for one
station: create the entry if absent, then append the line name. -/
def slAdd (sl : List (String × List String)) (s ln : String) :
    List (String × List String) :=
  if (lookupStr sl s).isSome then
    sl.map (fun p => if p.1 = s then (p.1, p.2 ++ [ln]) else p)
  else sl ++ [(s, [ln])]

/-- `line_colors[line_name] = color`. -/
def lcSet (lc : List (String × String)) (ln c : String) : List (String × String) :=
  if (lookupStr lc ln).isSome then
    lc.map (fun p => if p.1 = ln then (p.1, c) else p)
  else lc ++ [(ln, c)]

/-- The state threaded through `create_graph_from_ubahn`: the graph, the
`station_lines` dict and the `line_colors` dict. -/
structure BuildState where
  G : TGraph
  sl : List (String × List String)
  lc : List (String × String)

/-- The body of the inner loop of `create_graph_from_ubahn` (`task_1.py`
lines 32-46) for one consecutive station pair. -/
def lineStep (ln c : String) (acc : TGraph × List (String × List String))
    (pr : String × String) : TGraph × List (String × List String) :=
  (acc.1.addEdge pr.1 pr.2 ln c, slAdd (slAdd acc.2 pr.1 ln) pr.2 ln)

/-- Processing of one line (`task_1.py` lines 26-46): record the color, then
walk the consecutive station pairs. -/
def processLine (st : BuildState) (ln : String) (stations : List String)
    (c : String) : BuildState :=
  ⟨((stations.zip stations.tail).foldl (lineStep ln c) (st.G, st.sl)).1,
    ((stations.zip stations.tail).foldl (lineStep ln c) (st.G, st.sl)).2,
    lcSet st.lc ln c⟩

/-- `create_graph_from_ubahn(data)` (`task_1.py` lines 13-53).  `data` is the
insertion-ordered mapping line name ↦ (station list, color). -/
def create_graph_from_ubahn (data : List (String × List String × String)) :
    BuildState :=
  data.foldl (fun st e => processLine st e.1 e.2.1 e.2.2) ⟨⟨[], []⟩, [], []⟩

/-- The consecutive-pair events of one line: `(line, color, station1, station2)`
for each consecutive pair. -/
def lineEvents (ln c : String) (stations : List String) :
    List (String × String × String × String) :=
  (stations.zip stations.tail).map (fun pr => (ln, c, pr.1, pr.2))

/-- All consecutive-pair events of the input, in processing order. -/
def events (data : List (String × List String × String)) :
    List (String × String × String × String) :=
  data.flatMap (fun e => lineEvents e.1 e.2.2 e.2.1)

/-- The effect of one event on the graph and the `station_lines` dict. -/
def evStep (acc : TGraph × List (String × List String))
    (ev : String × String × String × String) :
    TGraph × List (String × List String) :=
  (acc.1.addEdge ev.2.2.1 ev.2.2.2 ev.1 ev.2.1,
    slAdd (slAdd acc.2 ev.2.2.1 ev.1) ev.2.2.2 ev.1)

/-- The `(line, color)` attributes of the last event touching an edge —
networkx's last-write-wins policy for repeated `add_edge` calls. -/
def lastTag : List (String × String × String × String) → String × String →
    Option (String × String)
  | [], _ => none
  | ev :: rest, k =>
    match lastTag rest k with
    | some t => some t
    | none =>
      if sameEdge (ev.2.2.1, ev.2.2.2) k then some (ev.1, ev.2.1) else none

/-- The list of line names recorded for a station in `station_lines`. -/
def linesOf (sl : List (String × List String)) (s : String) : List String :=
  (lookupStr sl s).getD []

/-- No two distinct lines connect the same unordered consecutive station
pair (the side condition under which edge tags are never overwritten by a
different line). -/
def NoSharedPair (data : List (String × List String × String)) : Prop :=
  ∀ e1 ∈ events data, ∀ e2 ∈ events data,
    sameEdge (e1.2.2.1, e1.2.2.2) (e2.2.2.1, e2.2.2.2) → e1.1 = e2.1

instance (data : List (String × List String × String)) :
    Decidable (NoSharedPair data) :=
  inferInstanceAs (Decidable (∀ e1 ∈ events data, ∀ e2 ∈ events data,
    sameEdge (e1.2.2.1, e1.2.2.2) (e2.2.2.1, e2.2.2.2) → e1.1 = e2.1))

/-! ### task_1: analyzer transfer-station listing -/

/-- Python string comparison: lexicographic by code point. -/
def pyStrLt (a b : String) : Prop := a.data < b.data

instance (a b : String) : Decidable (pyStrLt a b) :=
  inferInstanceAs (Decidable (a.data < b.data))

/-- The non-strict counterpart of `pyStrLt`. -/
def pyStrLe (a b : String) : Prop := ¬ b.data < a.data

instance (a b : String) : Decidable (pyStrLe a b) :=
  inferInstanceAs (Decidable (¬ b.data < a.data))

/-- The unsorted transfer-station list of `analyze_graph` (`task_1.py` lines
87-91): iterate `station_lines` in insertion order and keep stations on more
than one distinct line, as `(station, number of lines, sorted line names)`. -/
def transferBase (sl : List (String × List String)) :
    List (String × Nat × List String) :=
  sl.filterMap (fun p =>
    if 1 < p.2.dedup.length then
      some (p.1, p.2.dedup.length, p.2.dedup.insertionSort pyStrLe)
    else none)

/-- `transfer_stations.sort(key=lambda x: x[1], reverse=True)` (`task_1.py`
line 93): stable sort by line count descending.  A stable insertion sort with
the non-strict "count at least" relation leaves equal-count entries in their
original relative order, exactly like Python's stable `list.sort` with
`reverse=True`. -/
def transferListing (sl : List (String × List String)) :
    List (String × Nat × List String) :=
  (transferBase sl).insertionSort (fun x y => y.2.1 ≤ x.2.1)

/-- The ordering asserted by the spec for the transfer listing: line count
descending, ties broken by station name ascending. -/
def claimOrder (x y : String × Nat × List String) : Prop :=
  y.2.1 < x.2.1 ∨ (x.2.1 = y.2.1 ∧ pyStrLt x.1 y.1)

instance (x y : String × Nat × List String) : Decidable (claimOrder x y) :=
  inferInstanceAs (Decidable (y.2.1 < x.2.1 ∨ (x.2.1 = y.2.1 ∧ pyStrLt x.1 y.1)))

/-! ### Concrete inputs used by witnesses and counterexamples -/

/-- A three-station path graph `A - B - C`. -/
def gW : SGraph := ⟨[("A", ["B"]), ("B", ["A", "C"]), ("C", ["B"])]⟩

/-- Two isolated stations: two connected components. -/
def gTwo : SGraph := ⟨[("A", []), ("B", [])]⟩

/-- A single edge `A - B`. -/
def gAB : SGraph := ⟨[("A", ["B"]), ("B", ["A"])]⟩

/-- A weight function assigning every edge the weight `-1`. -/
def wNeg : String → String → ℚ := fun _ _ => -1

/-- A weight function assigning every edge the weight `1`. -/
def wOne : String → String → ℚ := fun _ _ => 1

/-- Line data with a single-station line. -/
def dataSingle : List (String × List String × String) := [("L1", ["A"], "red")]

/-- Two lines connecting the same consecutive station pair. -/
def dataShared : List (String × List String × String) :=
  [("L1", ["A", "B"], "red"), ("L2", ["A", "B"], "blue")]

/-- Two transfer stations with equal line counts whose first-appearance order
(`B` before `A`) differs from name order. -/
def dataTie : List (String × List String × String) :=
  [("L1", ["B", "A"], "red"), ("L2", ["A", "B"], "blue")]

/-- Scenario A of the spec: Red = `[S1, S2, S3]`, Blue = `[S3, S4, S5]`. -/
def dataW : List (String × List String × String) :=
  [("Red", ["S1", "S2", "S3"], "red"), ("Blue", ["S3", "S4", "S5"], "blue")]

/-- A trivial generator-state model for witnesses: seeding does nothing and
every draw is `1 / 2`. -/
def pyHalf : Unit → ℚ × Unit := fun _ => (1 / 2, ())

/-- A generator whose draw is the first value CPython's Mersenne Twister
produces after `random.seed(42)`, `0.6394267984578837`. -/
def pyMT42 : Unit → ℚ × Unit := fun _ => (6394267984578837 / 10000000000000000, ())

/-- The single-edge edge list used by the weight counterexample. -/
def edges1 : List ((String × String) × String × String) :=
  [(("A", "B"), "U1", "red")]

/-- The invariant of the BFS loop of `task_2.py`.  `queue` and `visited` are
the loop state; `s` is the start node and `goal` the target. -/
structure BfsInv (g : SGraph) (s goal : String)
    (queue : List (String × List String)) (visited : List String) : Prop where
  wpath : ∀ e ∈ queue, IsWalkFrom g s e.1 e.2 ∧ e.2.Nodup ∧ ∀ x ∈ e.2, x ∈ visited
  vnodup : visited.Nodup
  vsub : ∀ x ∈ visited, x ∈ g.nodes
  svis : s ∈ visited
  qnodup : (queue.map (fun e => e.1)).Nodup
  sorted : queue.Pairwise (fun e f => e.2.length ≤ f.2.length)
  span : ∀ e ∈ queue, ∀ f ∈ queue, e.2.length ≤ f.2.length + 1
  qmin : ∀ e ∈ queue, ∀ q, IsWalkFrom g s e.1 q → e.2.length ≤ q.length
  closed : ∀ x ∈ visited, (∀ e ∈ queue, e.1 ≠ x) → ∀ nb ∈ g.adj x, nb ∈ visited
  frontier : ∀ e, queue.head? = some e → ∀ x, x ∉ visited →
      ∀ q, IsWalkFrom g s x q → e.2.length + 1 ≤ q.length
  gpend : goal ∈ visited → ∃ e ∈ queue, e.1 = goal

/-! ### Walk lemmas -/

theorem lookupStr_mem {β : Type} :
    ∀ (l : List (String × β)) (s : String) (b : β),
      lookupStr l s = some b → (s, b) ∈ l := by
  intro l
  induction l with
  | nil => intro s b h; simp [lookupStr] at h
  | cons p rest ih =>
    intro s b h
    by_cases hp : p.1 = s
    · simp only [lookupStr, if_pos hp] at h
      have hpb : p = (s, b) := by
        cases p
        simp only [Option.some_inj] at h
        simp_all
      rw [← hpb]
      exact List.mem_cons_self _ _
    · simp only [lookupStr, if_neg hp] at h
      right; exact ih s b h

theorem adj_subset_nodes {g : SGraph} (hwf : WFAdj g) {v w : String}
    (h : w ∈ g.adj v) : w ∈ g.nodes := by
  unfold SGraph.adj at h
  rcases hl : lookupStr g.adjList v with _ | l
  · rw [hl] at h; simp at h
  · rw [hl] at h
    exact hwf (v, l) (lookupStr_mem g.adjList v l hl) w h

theorem walk_ne_nil {g : SGraph} {s t : String} {p : List String}
    (h : IsWalkFrom g s t p) : p ≠ [] := by
  rcases h with ⟨_, hh, _⟩
  intro he; rw [he] at hh; simp at hh

theorem walk_length_pos {g : SGraph} {s t : String} {p : List String}
    (h : IsWalkFrom g s t p) : 1 ≤ p.length := by
  have := walk_ne_nil h
  cases p with
  | nil => simp at this
  | cons a l => simp

theorem walk_single {g : SGraph} {s : String} : IsWalkFrom g s s [s] :=
  ⟨List.chain'_singleton s, rfl, rfl⟩

theorem walk_head_mem {g : SGraph} {s t : String} {p : List String}
    (h : IsWalkFrom g s t p) : s ∈ p := by
  rcases h with ⟨_, hh, _⟩
  cases p with
  | nil => simp at hh
  | cons a l => simp at hh; simp [hh]

theorem walk_last_mem {g : SGraph} {s t : String} {p : List String}
    (h : IsWalkFrom g s t p) : t ∈ p := by
  rcases h with ⟨_, _, hl⟩
  have hne : p ≠ [] := by intro he; rw [he] at hl; simp at hl
  have := List.getLast?_eq_getLast p hne
  rw [hl] at this
  rw [Option.some_injective _ this]
  exact List.getLast_mem hne

theorem walk_extend {g : SGraph} {s v nb : String} {p : List String}
    (h : IsWalkFrom g s v p) (hadj : Adjacent g v nb) :
    IsWalkFrom g s nb (p ++ [nb]) := by
  rcases h with ⟨hc, hh, hl⟩
  refine ⟨?_, ?_, ?_⟩
  · rw [List.chain'_append]
    refine ⟨hc, List.chain'_singleton nb, ?_⟩
    intro x hx y hy
    simp at hy
    rw [hl] at hx; simp at hx
    rw [← hx, ← hy]; exact hadj
  · cases p with
    | nil => simp at hh
    | cons a l => simpa using hh
  · simp

theorem chain_closed {g : SGraph} {vis : List String}
    (hcl : ∀ x ∈ vis, ∀ nb ∈ g.adj x, nb ∈ vis) :
    ∀ (p : List String) (s t : String), p.Chain' (Adjacent g) →
      p.head? = some s → p.getLast? = some t → s ∈ vis → t ∈ vis := by
  intro p
  induction p with
  | nil => intro s t _ hh _ _; simp at hh
  | cons a l ih =>
    intro s t hc hh hl hs
    have ha : a = s := by simpa using hh
    cases l with
    | nil =>
      have hat : a = t := by simpa using hl
      rw [← hat, ha]; exact hs
    | cons b l2 =>
      have hadj : Adjacent g a b := (List.chain'_cons.mp hc).1
      have hb : b ∈ vis := hcl a (ha ▸ hs) b hadj
      exact ih b t (List.chain'_cons.mp hc).2 rfl (by simpa using hl) hb

/-- A walk whose start lies in an adjacency-closed set ends in that set. -/
theorem walk_closed {g : SGraph} {vis : List String}
    (hcl : ∀ x ∈ vis, ∀ nb ∈ g.adj x, nb ∈ vis) {s t : String} {p : List String}
    (h : IsWalkFrom g s t p) (hs : s ∈ vis) : t ∈ vis := by
  rcases h with ⟨hc, hh, hl⟩
  exact chain_closed hcl p s t hc hh hl hs

/-- Splitting the last edge off a walk of length at least 2. -/
theorem walk_snoc_decomp {g : SGraph} {s t : String} {q : List String}
    (h : IsWalkFrom g s t q) (hlen : 2 ≤ q.length) :
    ∃ q2 y, q = q2 ++ [t] ∧ IsWalkFrom g s y q2 ∧ Adjacent g y t ∧
      q2.length + 1 = q.length := by
  rcases h with ⟨hc, hh, hl⟩
  have hne : q ≠ [] := by intro he; rw [he] at hh; simp at hh
  have hq : q = q.dropLast ++ [q.getLast hne] := (List.dropLast_append_getLast hne).symm
  have hlast : q.getLast hne = t := by
    have := List.getLast?_eq_getLast q hne
    rw [hl] at this; exact (Option.some_injective _ this).symm
  have hdne : q.dropLast ≠ [] := by
    intro he
    have : q.length ≤ 1 := by
      rw [hq, he]; simp
    omega
  refine ⟨q.dropLast, q.dropLast.getLast hdne, by rw [← hlast]; exact hq, ?_, ?_, ?_⟩
  · rw [hq] at hc
    rw [List.chain'_append] at hc
    refine ⟨hc.1, ?_, List.getLast?_eq_getLast _ hdne⟩
    rw [hq] at hh
    cases hd : q.dropLast with
    | nil => exact absurd hd hdne
    | cons a l => rw [hd] at hh; simpa using hh
  · rw [hq] at hc
    rw [List.chain'_append] at hc
    have hmem : t ∈ [q.getLast hne].head? := by simp [hlast]
    exact hc.2.2 (q.dropLast.getLast hdne) (List.getLast?_eq_getLast _ hdne) t hmem
  · have := List.length_dropLast q
    omega

/-! ### DFS soundness -/

theorem dfsAux_sound {g : SGraph} {s goal : String} :
    ∀ (fuel : Nat) (stack : List (String × List String)) (visited : List String),
      (∀ e ∈ stack, IsWalkFrom g s e.1 e.2) →
      ∀ p, dfsAux g goal fuel stack visited = some p → IsWalkFrom g s goal p := by
  intro fuel
  induction fuel with
  | zero => intro stack visited _ p h; simp [dfsAux] at h
  | succ fuel ih =>
    intro stack visited hinv p h
    cases stack with
    | nil => simp [dfsAux] at h
    | cons e stack =>
      obtain ⟨current, path⟩ := e
      rw [dfsAux] at h
      by_cases hg : current = goal
      · rw [if_pos hg] at h
        have := hinv (current, path) (List.mem_cons_self _ _)
        rw [Option.some_inj] at h
        rw [← h, ← hg]
        exact this
      · rw [if_neg hg] at h
        by_cases hv : current ∈ visited
        · rw [if_pos hv] at h
          exact ih stack visited (fun e he => hinv e (List.mem_cons_of_mem _ he)) p h
        · rw [if_neg hv] at h
          refine ih _ _ ?_ p h
          intro e he
          rw [List.mem_append] at he
          rcases he with he | he
          · rw [List.mem_map] at he
            obtain ⟨nb, hnb, rfl⟩ := he
            rw [List.mem_filter] at hnb
            exact walk_extend (hinv (current, path) (List.mem_cons_self _ _)) hnb.1
          · exact hinv e (List.mem_cons_of_mem _ he)

theorem dfs_path_sound {g : SGraph} {s t : String} {p : List String}
    (h : dfs_path g s t = some p) : IsWalkFrom g s t p := by
  unfold dfs_path at h
  by_cases hc : s ∈ g.nodes ∧ t ∈ g.nodes
  · rw [if_pos hc] at h
    refine dfsAux_sound _ _ _ ?_ p h
    intro e he
    rw [List.mem_singleton] at he
    rw [he]
    exact walk_single
  · rw [if_neg hc] at h; simp at h

/-! ### The enqueue step of BFS -/

/-- What one pass of the BFS neighbor loop does: some sublist `fresh` of the
neighbors (exactly the not yet visited ones, kept in order, without
duplicates) is marked visited and appended to the queue with the extended
path. -/
theorem enqueueNbrs_spec (path : List String) :
    ∀ (nbrs visited : List String) (queue : List (String × List String)),
      ∃ fresh : List String,
        (enqueueNbrs path nbrs visited queue).1 = fresh.reverse ++ visited ∧
        (enqueueNbrs path nbrs visited queue).2 =
          queue ++ fresh.map (fun nb => (nb, path ++ [nb])) ∧
        fresh.Nodup ∧
        (∀ x ∈ fresh, x ∈ nbrs ∧ x ∉ visited) ∧
        (∀ x ∈ nbrs, x ∉ visited → x ∈ fresh) := by
  intro nbrs
  induction nbrs with
  | nil =>
    intro visited queue
    exact ⟨[], by simp [enqueueNbrs], by simp [enqueueNbrs], by simp, by simp, by simp⟩
  | cons nb rest ih =>
    intro visited queue
    by_cases hv : nb ∈ visited
    · obtain ⟨fresh, h1, h2, h3, h4, h5⟩ := ih visited queue
      refine ⟨fresh, ?_, ?_, h3, ?_, ?_⟩
      · rw [enqueueNbrs, if_pos hv]; exact h1
      · rw [enqueueNbrs, if_pos hv]; exact h2
      · intro x hx
        exact ⟨List.mem_cons_of_mem _ (h4 x hx).1, (h4 x hx).2⟩
      · intro x hx hxv
        rcases List.mem_cons.mp hx with rfl | hx
        · exact absurd hv hxv
        · exact h5 x hx hxv
    · obtain ⟨fresh, h1, h2, h3, h4, h5⟩ :=
        ih (nb :: visited) (queue ++ [(nb, path ++ [nb])])
      refine ⟨nb :: fresh, ?_, ?_, ?_, ?_, ?_⟩
      · rw [enqueueNbrs, if_neg hv, h1]
        simp [List.append_assoc]
      · rw [enqueueNbrs, if_neg hv, h2]
        simp [List.append_assoc]
      · refine List.nodup_cons.mpr ⟨?_, h3⟩
        intro hnb
        exact (h4 nb hnb).2 (List.mem_cons_self _ _)
      · intro x hx
        rcases List.mem_cons.mp hx with rfl | hx
        · exact ⟨List.mem_cons_self _ _, hv⟩
        · have := h4 x hx
          refine ⟨List.mem_cons_of_mem _ this.1, ?_⟩
          intro hxv
          exact this.2 (List.mem_cons_of_mem _ hxv)
      · intro x hx hxv
        rcases List.mem_cons.mp hx with rfl | hx
        · exact List.mem_cons_self _ _
        · by_cases hxnb : x = nb
          · rw [hxnb]; exact List.mem_cons_self _ _
          · refine List.mem_cons_of_mem _ (h5 x hx ?_)
            intro hmem
            rcases List.mem_cons.mp hmem with h | h
            · exact hxnb h
            · exact hxv h

/-! ### BFS loop invariant -/

theorem walk_min_two {g : SGraph} {s t : String} {q : List String}
    (h : IsWalkFrom g s t q) (hne : s ≠ t) : 2 ≤ q.length := by
  rcases h with ⟨_, hh, hl⟩
  cases q with
  | nil => simp at hh
  | cons a l =>
    cases l with
    | nil =>
      simp at hh hl
      exact absurd (hh.symm.trans hl) hne
    | cons b l2 => simp

theorem pairwise_triv {α : Type} {R : α → α → Prop} (h : ∀ a b, R a b) :
    ∀ l : List α, l.Pairwise R := by
  intro l
  induction l with
  | nil => simp
  | cons a l ih => exact List.Pairwise.cons (fun b _ => h a b) ih

theorem BfsInv.qnode_vis {g : SGraph} {s goal : String}
    {queue : List (String × List String)} {visited : List String}
    (inv : BfsInv g s goal queue visited) {e : String × List String}
    (he : e ∈ queue) : e.1 ∈ visited := by
  obtain ⟨hw, _, hsub⟩ := inv.wpath e he
  exact hsub e.1 (walk_last_mem hw)

/-- One non-goal iteration of the BFS loop preserves the invariant.  `fresh`
is the block of newly discovered neighbors delivered by `enqueueNbrs_spec`. -/
theorem bfs_inv_step {g : SGraph} {s goal current : String} {path : List String}
    {rest : List (String × List String)} {visited fresh : List String}
    (hwf : WFAdj g)
    (inv : BfsInv g s goal ((current, path) :: rest) visited)
    (hng : current ≠ goal)
    (h3 : fresh.Nodup)
    (h4 : ∀ x ∈ fresh, x ∈ g.adj current ∧ x ∉ visited)
    (h5 : ∀ x ∈ g.adj current, x ∉ visited → x ∈ fresh) :
    BfsInv g s goal (rest ++ fresh.map (fun nb => (nb, path ++ [nb])))
      (fresh.reverse ++ visited) := by
  have hwcur : IsWalkFrom g s current path ∧ path.Nodup ∧ ∀ x ∈ path, x ∈ visited :=
    inv.wpath (current, path) (List.mem_cons_self _ _)
  have hlpos : 1 ≤ path.length := walk_length_pos hwcur.1
  have hfrontmin : ∀ e ∈ rest, path.length ≤ e.2.length := by
    have := inv.sorted
    rw [List.pairwise_cons] at this
    intro e he; exact this.1 e he
  have hspanfront : ∀ e ∈ rest, e.2.length ≤ path.length + 1 := by
    intro e he
    exact inv.span e (List.mem_cons_of_mem _ he) (current, path) (List.mem_cons_self _ _)
  have hv2 : ∀ x, x ∈ fresh.reverse ++ visited ↔ x ∈ fresh ∨ x ∈ visited := by
    intro x; simp
  have hq2 : ∀ e, e ∈ rest ++ fresh.map (fun nb => (nb, path ++ [nb])) ↔
      e ∈ rest ∨ ∃ nb ∈ fresh, e = (nb, path ++ [nb]) := by
    intro e; simp [eq_comm]
  have hadjv2 : ∀ nb ∈ g.adj current, nb ∈ fresh.reverse ++ visited := by
    intro nb hnb
    rw [hv2]
    by_cases hv : nb ∈ visited
    · exact Or.inr hv
    · exact Or.inl (h5 nb hnb hv)
  have hnewlen : ∀ nb : String, (path ++ [nb]).length = path.length + 1 := by
    intro nb; simp
  refine ⟨?_, ?_, ?_, ?_, ?_, ?_, ?_, ?_, ?_, ?_, ?_⟩
  · -- wpath
    intro e he
    rcases (hq2 e).mp he with he | ⟨nb, hnb, rfl⟩
    · obtain ⟨hw, hnd, hsub⟩ := inv.wpath e (List.mem_cons_of_mem _ he)
      exact ⟨hw, hnd, fun x hx => (hv2 x).mpr (Or.inr (hsub x hx))⟩
    · obtain ⟨hadj, hnv⟩ := h4 nb hnb
      refine ⟨walk_extend hwcur.1 hadj, ?_, ?_⟩
      · rw [List.nodup_append]
        refine ⟨hwcur.2.1, List.nodup_singleton nb, ?_⟩
        intro x hx
        simp only [List.mem_singleton]
        intro hxnb
        rw [hxnb] at hx
        exact hnv (hwcur.2.2 nb hx)
      · intro x hx
        rw [List.mem_append] at hx
        rcases hx with hx | hx
        · exact (hv2 x).mpr (Or.inr (hwcur.2.2 x hx))
        · rw [List.mem_singleton] at hx
          rw [hx]
          exact (hv2 nb).mpr (Or.inl hnb)
  · -- vnodup
    rw [List.nodup_append]
    refine ⟨List.nodup_reverse.mpr h3, inv.vnodup, ?_⟩
    intro x hx
    rw [List.mem_reverse] at hx
    exact (h4 x hx).2
  · -- vsub
    intro x hx
    rcases (hv2 x).mp hx with hx | hx
    · exact adj_subset_nodes hwf (h4 x hx).1
    · exact inv.vsub x hx
  · -- svis
    exact (hv2 s).mpr (Or.inr inv.svis)
  · -- qnodup
    have hmapeq : (rest ++ fresh.map (fun nb => (nb, path ++ [nb]))).map
        (fun e => e.1) = rest.map (fun e => e.1) ++ fresh := by
      simp [List.map_map, Function.comp_def]
    rw [hmapeq, List.nodup_append]
    refine ⟨?_, h3, ?_⟩
    · have := inv.qnodup
      simp only [List.map_cons, List.nodup_cons] at this
      exact this.2
    · intro x hx
      rw [List.mem_map] at hx
      obtain ⟨e, he, rfl⟩ := hx
      intro hxf
      exact (h4 e.1 hxf).2 (inv.qnode_vis (List.mem_cons_of_mem _ he))
  · -- sorted
    rw [List.pairwise_append]
    refine ⟨?_, ?_, ?_⟩
    · have := inv.sorted
      rw [List.pairwise_cons] at this
      exact this.2
    · rw [List.pairwise_map]
      exact pairwise_triv (fun a b => by simp) fresh
    · intro e he f hf
      rw [List.mem_map] at hf
      obtain ⟨nb, _, rfl⟩ := hf
      simp only [hnewlen]
      exact hspanfront e he
  · -- span
    intro e he f hf
    rcases (hq2 e).mp he with he2 | ⟨nb, hnb, rfl⟩ <;>
      rcases (hq2 f).mp hf with hf2 | ⟨nb2, hnb2, rfl⟩
    · exact inv.span e (List.mem_cons_of_mem _ he2) f (List.mem_cons_of_mem _ hf2)
    · simp only [hnewlen]
      have := hspanfront e he2
      omega
    · simp only [hnewlen]
      have := hfrontmin f hf2
      omega
    · simp only [hnewlen]
      omega
  · -- qmin
    intro e he q hq
    rcases (hq2 e).mp he with he2 | ⟨nb, hnb, rfl⟩
    · exact inv.qmin e (List.mem_cons_of_mem _ he2) q hq
    · simp only [hnewlen]
      exact inv.frontier (current, path) rfl nb (h4 nb hnb).2 q hq
  · -- closed
    intro x hx hno nb hnb
    rcases (hv2 x).mp hx with hx | hx
    · exact absurd rfl (hno (x, path ++ [x])
        ((hq2 _).mpr (Or.inr ⟨x, hx, rfl⟩)))
    · by_cases hxc : x = current
      · rw [hxc] at hnb
        exact hadjv2 nb hnb
      · have hnoold : ∀ e ∈ (current, path) :: rest, e.1 ≠ x := by
          intro e he
          rcases List.mem_cons.mp he with rfl | he
          · simpa using fun h => hxc h.symm
          · exact hno e ((hq2 e).mpr (Or.inl he))
        exact (hv2 nb).mpr (Or.inr (inv.closed x hx hnoold nb hnb))
  · -- frontier
    intro e2 hhead x hx q hq
    have hxv : x ∉ visited := fun h => hx ((hv2 x).mpr (Or.inr h))
    have hxf : x ∉ fresh := fun h => hx ((hv2 x).mpr (Or.inl h))
    have hxadj : x ∉ g.adj current := by
      intro h
      rcases (hv2 x).mp (hadjv2 x h) with h2 | h2
      · exact hxf h2
      · exact hxv h2
    have hqlow : path.length + 1 ≤ q.length :=
      inv.frontier (current, path) rfl x hxv q hq
    have he2mem : e2 ∈ rest ++ fresh.map (fun nb => (nb, path ++ [nb])) :=
      List.mem_of_mem_head? hhead
    have he2ub : e2.2.length ≤ path.length + 1 := by
      rcases (hq2 e2).mp he2mem with h | ⟨nb, _, rfl⟩
      · exact hspanfront e2 h
      · simp [hnewlen]
    rcases Nat.lt_or_ge e2.2.length (path.length + 1) with hcase | hcase
    · omega
    · have he2len : e2.2.length = path.length + 1 := by omega
      rcases Nat.lt_or_ge q.length (path.length + 2) with hql | hql
      · exfalso
        have hqlen : q.length = path.length + 1 := by omega
        have hq2len : 2 ≤ q.length := by omega
        obtain ⟨q3, y, rfl, hq3, hyx, hq3len⟩ := walk_snoc_decomp hq hq2len
        have hq3l : q3.length = path.length := by omega
        have hyvis : y ∈ visited := by
          by_contra hyv
          have hfr : path.length + 1 ≤ q3.length :=
            inv.frontier (current, path) rfl y hyv q3 hq3
          omega
        have hyc : y ≠ current := by
          intro h; rw [h] at hyx; exact hxadj hyx
        have hynotrest : ∀ e3 ∈ rest, e3.1 ≠ y := by
          intro e3 he3 he3y
          have hmin3 : e3.2.length ≤ q3.length :=
            inv.qmin e3 (List.mem_cons_of_mem _ he3) q3 (by rw [he3y]; exact hq3)
          -- the new queue is sorted and its head has length `path.length + 1`,
          -- so every entry of `rest` has at least that length
          have hsorted2 : (rest ++ fresh.map (fun nb => (nb, path ++ [nb]))).Pairwise
              (fun e f => e.2.length ≤ f.2.length) := by
            rw [List.pairwise_append]
            refine ⟨?_, ?_, ?_⟩
            · have := inv.sorted
              rw [List.pairwise_cons] at this
              exact this.2
            · rw [List.pairwise_map]
              exact pairwise_triv (fun a b => by simp) fresh
            · intro e he f hf
              rw [List.mem_map] at hf
              obtain ⟨nb, _, rfl⟩ := hf
              simp only [hnewlen]
              exact hspanfront e he
          have hheadmin : ∀ f ∈ rest ++ fresh.map (fun nb => (nb, path ++ [nb])),
              e2.2.length ≤ f.2.length := by
            intro f hf
            rcases hcons : rest ++ fresh.map (fun nb => (nb, path ++ [nb])) with
              _ | ⟨e0, tail⟩
            · rw [hcons] at hf; simp at hf
            · have he0 : e0 = e2 := by
                rw [hcons] at hhead; simpa using hhead
              rw [hcons] at hsorted2 hf
              rw [List.pairwise_cons] at hsorted2
              rcases List.mem_cons.mp hf with rfl | hf
              · exact Nat.le_of_eq (by rw [he0])
              · rw [← he0]
                exact hsorted2.1 f hf
          have he3low : e2.2.length ≤ e3.2.length :=
            hheadmin e3 ((hq2 e3).mpr (Or.inl he3))
          omega
        have hnoq : ∀ e3 ∈ (current, path) :: rest, e3.1 ≠ y := by
          intro e3 he3
          rcases List.mem_cons.mp he3 with rfl | he3
          · simpa using fun h => hyc h.symm
          · exact hynotrest e3 he3
        have := inv.closed y hyvis hnoq x hyx
        exact hxv this
      · omega
  · -- gpend
    intro hg
    rcases (hv2 goal).mp hg with hg | hg
    · exact ⟨(goal, path ++ [goal]), (hq2 _).mpr (Or.inr ⟨goal, hg, rfl⟩), rfl⟩
    · obtain ⟨e, he, hegoal⟩ := inv.gpend hg
      rcases List.mem_cons.mp he with rfl | he
      · exact absurd hegoal hng
      · exact ⟨e, (hq2 e).mpr (Or.inl he), hegoal⟩

/-- With an empty queue, the visited set is adjacency-closed and the goal was
never discovered, contradicting reachability. -/
theorem bfs_empty_contra {g : SGraph} {s goal : String} {visited : List String}
    (inv : BfsInv g s goal [] visited)
    (hreach : ∃ w, IsWalkFrom g s goal w) : False := by
  obtain ⟨w, hw⟩ := hreach
  have hcl : ∀ x ∈ visited, ∀ nb ∈ g.adj x, nb ∈ visited := by
    intro x hx
    exact inv.closed x hx (by intro e he; simp at he)
  have hg : goal ∈ visited := walk_closed hcl hw inv.svis
  obtain ⟨e, he, _⟩ := inv.gpend hg
  simp at he

/-- Main BFS lemma: under the loop invariant and with enough fuel, if the goal
is reachable the loop returns a duplicate-free walk to the goal of minimal
length. -/
theorem bfsAux_finds {g : SGraph} {s goal : String} (hwf : WFAdj g)
    (hreach : ∃ w, IsWalkFrom g s goal w) :
    ∀ (fuel : Nat) (queue : List (String × List String)) (visited : List String),
      BfsInv g s goal queue visited →
      (g.nodes.length - visited.length) + queue.length ≤ fuel →
      ∃ p, bfsAux g goal fuel queue visited = some p ∧ IsWalkFrom g s goal p ∧
        p.Nodup ∧ ∀ q, IsWalkFrom g s goal q → p.length ≤ q.length := by
  intro fuel
  induction fuel with
  | zero =>
    intro queue visited inv hb
    exfalso
    cases queue with
    | nil => exact bfs_empty_contra inv hreach
    | cons e rest => simp at hb
  | succ fuel ih =>
    intro queue visited inv hb
    cases queue with
    | nil => exact absurd (bfs_empty_contra inv hreach) not_false
    | cons e rest =>
      obtain ⟨current, path⟩ := e
      by_cases hg : current = goal
      · refine ⟨path, ?_, ?_, ?_, ?_⟩
        · rw [bfsAux, if_pos hg]
        · have := (inv.wpath (current, path) (List.mem_cons_self _ _)).1
          rw [← hg]; exact this
        · exact (inv.wpath (current, path) (List.mem_cons_self _ _)).2.1
        · intro q hq
          refine inv.qmin (current, path) (List.mem_cons_self _ _) q ?_
          rw [hg]; exact hq
      · obtain ⟨fresh, h1, h2, h3, h4, h5⟩ :=
          enqueueNbrs_spec path (g.adj current) visited rest
        have inv2 := bfs_inv_step hwf inv hg h3 h4 h5
        have hv2len : (fresh.reverse ++ visited).length =
            fresh.length + visited.length := by simp
        have hq2len : (rest ++ fresh.map (fun nb => (nb, path ++ [nb]))).length =
            rest.length + fresh.length := by simp
        have hv2sub : (fresh.reverse ++ visited).length ≤ g.nodes.length :=
          List.Subperm.length_le
            (List.Nodup.subperm inv2.vnodup (fun x hx => inv2.vsub x hx))
        obtain ⟨p, hp, hw, hn, hmin⟩ := ih
          (rest ++ fresh.map (fun nb => (nb, path ++ [nb])))
          (fresh.reverse ++ visited) inv2 (by simp at hb ⊢; omega)
        refine ⟨p, ?_, hw, hn, hmin⟩
        rw [bfsAux, if_neg hg, h1, h2]
        exact hp

/-- Soundness of the BFS loop without any reachability assumption: a returned
path is a duplicate-free walk from `s` to `goal`. -/
theorem bfsAux_sound {g : SGraph} {s goal : String} :
    ∀ (fuel : Nat) (queue : List (String × List String)) (visited : List String),
      (∀ e ∈ queue, IsWalkFrom g s e.1 e.2 ∧ e.2.Nodup ∧ ∀ x ∈ e.2, x ∈ visited) →
      ∀ p, bfsAux g goal fuel queue visited = some p →
        IsWalkFrom g s goal p ∧ p.Nodup := by
  intro fuel
  induction fuel with
  | zero => intro queue visited _ p h; simp [bfsAux] at h
  | succ fuel ih =>
    intro queue visited hinv p h
    cases queue with
    | nil => simp [bfsAux] at h
    | cons e rest =>
      obtain ⟨current, path⟩ := e
      rw [bfsAux] at h
      by_cases hg : current = goal
      · rw [if_pos hg] at h
        rw [Option.some_inj] at h
        obtain ⟨hw, hn, _⟩ := hinv (current, path) (List.mem_cons_self _ _)
        rw [← h, ← hg]
        exact ⟨hw, hn⟩
      · rw [if_neg hg] at h
        obtain ⟨fresh, h1, h2, h3, h4, h5⟩ :=
          enqueueNbrs_spec path (g.adj current) visited rest
        rw [h1, h2] at h
        refine ih _ _ ?_ p h
        obtain ⟨hwcur, hndcur, hsubcur⟩ :=
          hinv (current, path) (List.mem_cons_self _ _)
        intro e he
        rw [List.mem_append] at he
        rcases he with he | he
        · obtain ⟨hw, hn, hsub⟩ := hinv e (List.mem_cons_of_mem _ he)
          exact ⟨hw, hn, fun x hx => by simp [hsub x hx]⟩
        · rw [List.mem_map] at he
          obtain ⟨nb, hnb, rfl⟩ := he
          obtain ⟨hadj, hnv⟩ := h4 nb hnb
          refine ⟨walk_extend hwcur hadj, ?_, ?_⟩
          · rw [List.nodup_append]
            refine ⟨hndcur, List.nodup_singleton nb, ?_⟩
            intro x hx
            simp only [List.mem_singleton]
            intro hxnb
            rw [hxnb] at hx
            exact hnv (hsubcur nb hx)
          · intro x hx
            rw [List.mem_append] at hx
            rcases hx with hx | hx
            · simp [hsubcur x hx]
            · rw [List.mem_singleton] at hx
              simp [hx, hnb]

/-- The BFS loop invariant holds at entry to the loop. -/
theorem bfs_init_inv {g : SGraph} {s goal : String} (hs : s ∈ g.nodes) :
    BfsInv g s goal [(s, [s])] [s] := by
  refine ⟨?_, ?_, ?_, ?_, ?_, ?_, ?_, ?_, ?_, ?_, ?_⟩
  · intro e he
    rw [List.mem_singleton] at he
    subst he
    exact ⟨walk_single, List.nodup_singleton s, by simp⟩
  · exact List.nodup_singleton s
  · intro x hx
    rw [List.mem_singleton] at hx
    rw [hx]; exact hs
  · simp
  · simp
  · simp
  · intro e he f hf
    rw [List.mem_singleton] at he hf
    subst he; subst hf
    simp
  · intro e he q hq
    rw [List.mem_singleton] at he
    subst he
    exact walk_length_pos hq
  · intro x hx hno nb hnb
    rw [List.mem_singleton] at hx
    exact absurd hx.symm (hno (s, [s]) (List.mem_singleton_self _))
  · intro e hhead x hx q hq
    have he : (s, [s]) = e := by simpa using hhead
    subst he
    have hsx : s ≠ x := by
      intro h
      exact hx (by rw [← h]; exact List.mem_singleton_self s)
    simpa using walk_min_two hq hsx
  · intro hgv
    rw [List.mem_singleton] at hgv
    exact ⟨(s, [s]), List.mem_singleton_self _, hgv.symm⟩

/-- `bfs_path` on a well-formed graph returns, for any connected pair, a
duplicate-free walk of minimal length. -/
theorem bfs_path_spec {g : SGraph} {s t : String} (hwf : WFAdj g)
    (hs : s ∈ g.nodes) (ht : t ∈ g.nodes)
    (hreach : ∃ w, IsWalkFrom g s t w) :
    ∃ p, bfs_path g s t = some p ∧ IsWalkFrom g s t p ∧ p.Nodup ∧
      ∀ q, IsWalkFrom g s t q → p.length ≤ q.length := by
  unfold bfs_path
  rw [if_pos ⟨hs, ht⟩]
  refine bfsAux_finds hwf hreach (g.nodes.length + 1) _ _ (bfs_init_inv hs) ?_
  simp

/-- Soundness of `bfs_path`: any returned path is a duplicate-free walk. -/
theorem bfs_path_sound {g : SGraph} {s t : String} {p : List String}
    (h : bfs_path g s t = some p) : IsWalkFrom g s t p ∧ p.Nodup := by
  unfold bfs_path at h
  by_cases hc : s ∈ g.nodes ∧ t ∈ g.nodes
  · rw [if_pos hc] at h
    refine bfsAux_sound _ _ _ ?_ p h
    intro e he
    rw [List.mem_singleton] at he
    subst he
    exact ⟨walk_single, List.nodup_singleton s, by simp⟩
  · rw [if_neg hc] at h; simp at h

/-! ### Simple-path enumeration -/

theorem walk_subset_nodes {g : SGraph} (hwf : WFAdj g) :
    ∀ (p : List String) (s t : String), IsWalkFrom g s t p → s ∈ g.nodes →
      ∀ x ∈ p, x ∈ g.nodes := by
  intro p
  induction p with
  | nil => intro s t hw _ x hx; simp at hx
  | cons a l ih =>
    intro s t hw hs x hx
    rcases hw with ⟨hc, hh, hl⟩
    have ha : a = s := by simpa using hh
    rcases List.mem_cons.mp hx with rfl | hx
    · rw [ha]; exact hs
    · cases l with
      | nil => simp at hx
      | cons b l2 =>
        have hadj : Adjacent g a b := (List.chain'_cons.mp hc).1
        have hb : b ∈ g.nodes := adj_subset_nodes hwf hadj
        exact ih b t ⟨(List.chain'_cons.mp hc).2, rfl, by simpa using hl⟩ hb x hx

theorem simplePathsAux_sound {g : SGraph} {t : String} :
    ∀ (fuel : Nat) (c : String) (seen : List String) (p : List String),
      p ∈ simplePathsAux g t fuel c seen →
      IsWalkFrom g c t p ∧ (∀ x ∈ p, x = c ∨ x ∉ seen) ∧ (c ∈ seen → p.Nodup) := by
  intro fuel
  induction fuel with
  | zero =>
    intro c seen p hp
    rw [simplePathsAux] at hp
    by_cases hct : c = t
    · rw [if_pos hct] at hp
      rw [List.mem_singleton] at hp
      subst hp
      exact ⟨by rw [← hct]; exact walk_single, by simp, fun _ => List.nodup_singleton c⟩
    · rw [if_neg hct] at hp; simp at hp
  | succ fuel ih =>
    intro c seen p hp
    rw [simplePathsAux] at hp
    rw [List.mem_append] at hp
    rcases hp with hp | hp
    · by_cases hct : c = t
      · rw [if_pos hct] at hp
        rw [List.mem_singleton] at hp
        subst hp
        exact ⟨by rw [← hct]; exact walk_single, by simp, fun _ => List.nodup_singleton c⟩
      · rw [if_neg hct] at hp; simp at hp
    · rw [List.mem_flatMap] at hp
      obtain ⟨nb, hnb, hp⟩ := hp
      rw [List.mem_filter] at hnb
      obtain ⟨hnbadj, hnbseen⟩ := hnb
      rw [decide_eq_true_iff] at hnbseen
      rw [List.mem_map] at hp
      obtain ⟨p2, hp2, rfl⟩ := hp
      obtain ⟨hw2, hprop2, hnd2⟩ := ih nb (nb :: seen) p2 hp2
      have hp2ne : p2 ≠ [] := walk_ne_nil hw2
      have hhead2 : p2.head? = some nb := hw2.2.1
      refine ⟨⟨?_, ?_, ?_⟩, ?_, ?_⟩
      · rw [List.chain'_cons']
        refine ⟨?_, hw2.1⟩
        intro y hy
        rw [hhead2] at hy
        simp at hy
        rw [← hy]
        exact hnbadj
      · rfl
      · cases p2 with
        | nil => exact absurd rfl hp2ne
        | cons b l =>
          rw [List.getLast?_cons_cons]
          exact hw2.2.2
      · intro x hx
        rcases List.mem_cons.mp hx with rfl | hx
        · exact Or.inl rfl
        · rcases hprop2 x hx with rfl | hx2
          · exact Or.inr hnbseen
          · refine Or.inr (fun hxs => hx2 (List.mem_cons_of_mem _ hxs))
      · intro hcs
        rw [List.nodup_cons]
        refine ⟨?_, hnd2 (List.mem_cons_self _ _)⟩
        intro hcp2
        rcases hprop2 c hcp2 with heq | hnotin
        · rw [heq] at hcs
          exact hnbseen hcs
        · exact hnotin (List.mem_cons_of_mem _ hcs)

theorem simplePathsAux_complete {g : SGraph} {t : String} :
    ∀ (fuel : Nat) (c : String) (seen : List String) (p : List String),
      IsWalkFrom g c t p → p.Nodup → (∀ x ∈ p.tail, x ∉ seen) →
      p.length ≤ fuel + 1 → p ∈ simplePathsAux g t fuel c seen := by
  intro fuel
  induction fuel with
  | zero =>
    intro c seen p hw hnd htail hlen
    obtain ⟨hc, hh, hl⟩ := hw
    cases p with
    | nil => simp at hh
    | cons a l =>
      have ha : a = c := by simpa using hh
      cases l with
      | nil =>
        have hat : a = t := by simpa using hl
        rw [simplePathsAux, ← ha, hat, if_pos rfl]
        simp [← hat]
      | cons b l2 => simp at hlen
  | succ fuel ih =>
    intro c seen p hw hnd htail hlen
    obtain ⟨hc, hh, hl⟩ := hw
    cases p with
    | nil => simp at hh
    | cons a l =>
      have ha : a = c := by simpa using hh
      subst ha
      cases l with
      | nil =>
        have hat : a = t := by simpa using hl
        rw [simplePathsAux]
        rw [List.mem_append]
        left
        rw [hat, if_pos rfl]
        simp [← hat]
      | cons b l2 =>
        rw [simplePathsAux]
        rw [List.mem_append]
        right
        rw [List.mem_flatMap]
        refine ⟨b, ?_, ?_⟩
        · rw [List.mem_filter]
          refine ⟨(List.chain'_cons.mp hc).1, ?_⟩
          rw [decide_eq_true_iff]
          exact htail b (List.mem_cons_self _ _)
        · rw [List.mem_map]
          refine ⟨b :: l2, ?_, rfl⟩
          have hbl2 : b ∉ l2 := (List.nodup_cons.mp (List.nodup_cons.mp hnd).2).1
          refine ih b (b :: seen) (b :: l2)
            ⟨(List.chain'_cons.mp hc).2, rfl, by simpa using hl⟩
            (List.nodup_cons.mp hnd).2 ?_ (by simp at hlen ⊢; omega)
          intro x hx
          simp only [List.tail_cons] at hx
          intro hmem
          rcases List.mem_cons.mp hmem with rfl | hmem
          · exact hbl2 hx
          · exact htail x (List.mem_cons_of_mem _ hx) hmem

/-- Every duplicate-free walk between nodes of a well-formed graph is
enumerated by `simplePaths`. -/
theorem simplePaths_mem {g : SGraph} {s t : String} {p : List String}
    (hwf : WFAdj g) (hs : s ∈ g.nodes)
    (hw : IsWalkFrom g s t p) (hnd : p.Nodup) : p ∈ simplePaths g s t := by
  unfold simplePaths
  have hsub : ∀ x ∈ p, x ∈ g.nodes := walk_subset_nodes hwf p s t hw hs
  have hlen : p.length ≤ g.nodes.length :=
    List.Subperm.length_le (List.Nodup.subperm hnd hsub)
  refine simplePathsAux_complete g.nodes.length s [s] p hw hnd ?_ (by omega)
  intro x hx
  rw [List.mem_singleton]
  intro hxs
  subst hxs
  obtain ⟨_, hh, _⟩ := hw
  cases p with
  | nil => simp at hh
  | cons a l =>
    have ha : a = x := by simpa using hh
    simp only [List.tail_cons] at hx
    rw [List.nodup_cons, ha] at hnd
    exact hnd.1 hx

/-- Every path enumerated by `simplePaths` is a duplicate-free walk. -/
theorem simplePaths_sound {g : SGraph} {s t : String} {p : List String}
    (hp : p ∈ simplePaths g s t) : IsWalkFrom g s t p ∧ p.Nodup := by
  obtain ⟨hw, _, hnd⟩ :=
    simplePathsAux_sound g.nodes.length s [s] p hp
  exact ⟨hw, hnd (List.mem_singleton_self s)⟩

theorem minCostBy_none (cost : List String → ℚ) :
    ∀ (l : List (List String)), minCostBy cost l = none → l = [] := by
  intro l h
  cases l with
  | nil => rfl
  | cons a rest =>
    rw [minCostBy] at h
    cases hr : minCostBy cost rest with
    | none =>
      rw [hr] at h
      change some a = none at h
      simp at h
    | some q =>
      rw [hr] at h
      change (if cost q < cost a then some q else some a) = none at h
      by_cases hlt : cost q < cost a
      · rw [if_pos hlt] at h; simp at h
      · rw [if_neg hlt] at h; simp at h

theorem minCostBy_mem_min (cost : List String → ℚ) :
    ∀ (l : List (List String)) (p : List String),
      minCostBy cost l = some p → p ∈ l ∧ ∀ q ∈ l, cost p ≤ cost q := by
  intro l
  induction l with
  | nil => intro p h; simp [minCostBy] at h
  | cons p0 rest ih =>
    intro p h
    rw [minCostBy] at h
    cases hrec : minCostBy cost rest with
    | none =>
      rw [hrec] at h
      change some p0 = some p at h
      rw [Option.some_inj] at h
      subst h
      have hrest : rest = [] := minCostBy_none cost rest hrec
      subst hrest
      exact ⟨List.mem_singleton_self _, by simp⟩
    | some q =>
      rw [hrec] at h
      change (if cost q < cost p0 then some q else some p0) = some p at h
      obtain ⟨hqmem, hqmin⟩ := ih q hrec
      by_cases hlt : cost q < cost p0
      · rw [if_pos hlt] at h
        rw [Option.some_inj] at h
        subst h
        refine ⟨List.mem_cons_of_mem _ hqmem, ?_⟩
        intro r hr
        rcases List.mem_cons.mp hr with rfl | hr
        · exact le_of_lt hlt
        · exact hqmin r hr
      · rw [if_neg hlt] at h
        rw [Option.some_inj] at h
        subst h
        refine ⟨List.mem_cons_self _ _, ?_⟩
        intro r hr
        rcases List.mem_cons.mp hr with rfl | hr
        · exact le_refl _
        · exact le_trans (le_of_not_lt hlt) (hqmin r hr)

theorem minCostBy_ne_nil (cost : List String → ℚ) :
    ∀ (l : List (List String)), l ≠ [] → ∃ p, minCostBy cost l = some p := by
  intro l hl
  cases l with
  | nil => exact absurd rfl hl
  | cons p0 rest =>
    rw [minCostBy]
    cases minCostBy cost rest with
    | none => exact ⟨p0, rfl⟩
    | some q => by_cases h : cost q < cost p0 <;> simp [h]

/-- The full behavior of the Dijkstra query on a connected pair: it returns
the minimum-cost simple path, its cost, and its segment list, and the cost is
at most the cost of every duplicate-free walk between the endpoints. -/
theorem dijkstra_spec {g : SGraph} {w : String → String → ℚ} {s t : String}
    (hwf : WFAdj g) (hs : s ∈ g.nodes) (ht : t ∈ g.nodes)
    (hconn : ∃ q, IsWalkFrom g s t q) :
    ∃ p d sg, dijkstra_shortest_path g w s t = some (p, d, sg) ∧
      IsWalkFrom g s t p ∧ p.Nodup ∧ d = pathCost w p ∧ sg = segs w p ∧
      ∀ q, IsWalkFrom g s t q → q.Nodup → d ≤ pathCost w q := by
  obtain ⟨p0, _, hw0, hn0, _⟩ := bfs_path_spec hwf hs ht hconn
  have hmem0 : p0 ∈ simplePaths g s t := simplePaths_mem hwf hs hw0 hn0
  unfold dijkstra_shortest_path
  rw [if_pos ⟨hs, ht⟩]
  obtain ⟨p, hmc⟩ := minCostBy_ne_nil (pathCost w) (simplePaths g s t)
    (by intro he; rw [he] at hmem0; simp at hmem0)
  rw [hmc]
  obtain ⟨hpmem, hpmin⟩ := minCostBy_mem_min (pathCost w) _ p hmc
  obtain ⟨hpw, hpnd⟩ := simplePaths_sound hpmem
  refine ⟨p, pathCost w p, segs w p, rfl, hpw, hpnd, rfl, rfl, ?_⟩
  intro q hq hqnd
  exact hpmin q (simplePaths_mem hwf hs hq hqnd)

/-! ### Claim theorems: pathfinding -/

/-- C1: for every graph and every pair of stations `s`, `t` that are nodes of
the graph and lie in the same connected component, `bfs_path` returns a path
from `s` to `t` whose number of edges (= list length minus one, so minimal
list length is minimal edge count) is minimal among all `s`-`t` paths in the
graph; consequently its length never exceeds that of the path returned by
`dfs_path` for the same pair. -/
theorem C1_bfs_minimal_le_dfs (g : SGraph) (s t : String) (hwf : WFAdj g)
    (hs : s ∈ g.nodes) (ht : t ∈ g.nodes)
    (hconn : ∃ q, IsWalkFrom g s t q) :
    ∃ p, bfs_path g s t = some p ∧ IsWalkFrom g s t p ∧
      (∀ q, IsWalkFrom g s t q → p.length ≤ q.length) ∧
      (∀ q, dfs_path g s t = some q → p.length ≤ q.length) := by
  obtain ⟨p, hp, hw, _, hmin⟩ := bfs_path_spec hwf hs ht hconn
  exact ⟨p, hp, hw, hmin, fun q hq => hmin q (dfs_path_sound hq)⟩

/-- Witness for C1 on the path graph `A - B - C`. -/
theorem C1_witness :
    ∃ p, bfs_path gW "A" "C" = some p ∧ IsWalkFrom gW "A" "C" p ∧
      (∀ q, IsWalkFrom gW "A" "C" q → p.length ≤ q.length) ∧
      (∀ q, dfs_path gW "A" "C" = some q → p.length ≤ q.length) :=
  C1_bfs_minimal_le_dfs gW "A" "C" (by decide) (by decide) (by decide)
    ⟨["A", "B", "C"], walk_extend (walk_extend walk_single (by decide)) (by decide)⟩

/-- C2: for every weighted graph with non-negative weights and every
connected start/goal pair, the total distance returned by
`dijkstra_shortest_path` is at most the sum of the edge weights along the path
returned by the unweighted BFS query.  (Non-negativity is the claim's premise
and the condition under which the minimum-cost-simple-path model of the
networkx search is accurate; the comparison itself holds because the BFS path
is one of the simple paths the minimum ranges over.) -/
theorem C2_dijkstra_le_bfs_cost (g : SGraph) (w : String → String → ℚ)
    (s t : String) (hwf : WFAdj g) (hs : s ∈ g.nodes) (ht : t ∈ g.nodes)
    (hconn : ∃ q, IsWalkFrom g s t q) (hnn : ∀ u v, 0 ≤ w u v) :
    ∃ p d sg q, dijkstra_shortest_path g w s t = some (p, d, sg) ∧
      bfs_path g s t = some q ∧ d ≤ pathCost w q := by
  obtain ⟨p, d, sg, hdij, _, _, _, _, hmin⟩ := dijkstra_spec hwf hs ht hconn
  obtain ⟨q, hq, hqw, hqnd, _⟩ := bfs_path_spec hwf hs ht hconn
  exact ⟨p, d, sg, q, hdij, hq, hmin q hqw hqnd⟩

/-- Witness for C2 on the path graph `A - B - C` with unit weights. -/
theorem C2_witness :
    ∃ p d sg q, dijkstra_shortest_path gW wOne "A" "C" = some (p, d, sg) ∧
      bfs_path gW "A" "C" = some q ∧ d ≤ pathCost wOne q :=
  C2_dijkstra_le_bfs_cost gW wOne "A" "C" (by decide) (by decide) (by decide)
    ⟨["A", "B", "C"], walk_extend (walk_extend walk_single (by decide)) (by decide)⟩
    (fun _ _ => by norm_num [wOne])

/-- C6, counterexample: on the single-edge graph `A - B` whose edge has the
negative weight `-1`, the Dijkstra query does not fail with any
`InvalidWeight` error — no such error exists anywhere in the code — but
returns the path computed with the negative weight as is. -/
theorem C6_counterexample :
    wNeg "A" "B" < 0 ∧
      dijkstra_shortest_path gAB wNeg "A" "B" =
        some (["A", "B"], -1, [("A", "B", -1)]) := by
  refine ⟨by norm_num [wNeg], ?_⟩
  have hsp : simplePaths gAB "A" "B" = [["A", "B"]] := by decide
  unfold dijkstra_shortest_path
  rw [if_pos (by decide : ("A" : String) ∈ gAB.nodes ∧ ("B" : String) ∈ gAB.nodes)]
  rw [hsp]
  simp only [minCostBy]
  norm_num [pathCost, segs, wNeg]

/-- C6, amended: the code defines no `InvalidWeight` error and performs no
weight validation.  A negative weight is never turned into an `InvalidWeight`
failure: it can be passed through as is, as `C6_counterexample` shows on a
single negatively-weighted edge (the only other possibility with negative
weights is an uncaught library exception, not an error result — `task_3.py`
lines 68-71 catch only `NetworkXNoPath` and `NodeNotFound`).  Within the
regime the spec declares valid — all weights non-negative — every connected
query succeeds, returning a path together with its cost and segment list
computed from the given weights as is; no weight-related error result exists
in the interface. -/
theorem C6_no_weight_validation (g : SGraph) (w : String → String → ℚ)
    (s t : String) (hwf : WFAdj g) (hs : s ∈ g.nodes) (ht : t ∈ g.nodes)
    (hconn : ∃ q, IsWalkFrom g s t q) (hnn : ∀ u v, 0 ≤ w u v) :
    ∃ p d sg, dijkstra_shortest_path g w s t = some (p, d, sg) ∧
      d = pathCost w p ∧ sg = segs w p := by
  obtain ⟨p, d, sg, hdij, _, _, hd, hsg, _⟩ := dijkstra_spec hwf hs ht hconn
  exact ⟨p, d, sg, hdij, hd, hsg⟩

/-- Witness for the amended C6 on the single-edge graph with unit weights. -/
theorem C6_witness :
    ∃ p d sg, dijkstra_shortest_path gAB wOne "A" "B" = some (p, d, sg) ∧
      d = pathCost wOne p ∧ sg = segs wOne p :=
  C6_no_weight_validation gAB wOne "A" "B" (by decide) (by decide) (by decide)
    ⟨["A", "B"], walk_extend walk_single (by decide)⟩
    (fun _ _ => by norm_num [wOne])

/-- C7, counterexample: `dfs_path`, `bfs_path` and `dijkstra_shortest_path`
return exactly the same result (`None` respectively `(None, None, None)`)
when a queried node is missing (`"X"`) as when the two stations lie in
different connected components (`"A"`, `"B"` in the two-component graph), so
a caller cannot tell the two failure kinds apart. -/
theorem C7_counterexample :
    dfs_path gTwo "X" "A" = dfs_path gTwo "A" "B" ∧
    bfs_path gTwo "X" "A" = bfs_path gTwo "A" "B" ∧
    dijkstra_shortest_path gTwo wOne "X" "A" =
      dijkstra_shortest_path gTwo wOne "A" "B" ∧
    dfs_path gTwo "A" "B" = none ∧
    bfs_path gTwo "A" "B" = none ∧
    dijkstra_shortest_path gTwo wOne "A" "B" = none :=
  ⟨by decide, by decide, by decide, by decide, by decide, by decide⟩

/-- C7, amended: the three path queries return the same undifferentiated
failure value `none` both when `start` or `goal` is not a station of the
graph and when both exist but are not connected; the code does not
distinguish the two failure kinds. -/
theorem C7_failures_all_none (g : SGraph) (w : String → String → ℚ)
    (s t : String)
    (hfail : s ∉ g.nodes ∨ t ∉ g.nodes ∨ ¬ ∃ p, IsWalkFrom g s t p) :
    dfs_path g s t = none ∧ bfs_path g s t = none ∧
      dijkstra_shortest_path g w s t = none := by
  by_cases hmem : s ∈ g.nodes ∧ t ∈ g.nodes
  · have hnoconn : ¬ ∃ p, IsWalkFrom g s t p := by
      rcases hfail with h | h | h
      · exact absurd hmem.1 h
      · exact absurd hmem.2 h
      · exact h
    refine ⟨?_, ?_, ?_⟩
    · cases hd : dfs_path g s t with
      | none => rfl
      | some p => exact absurd ⟨p, dfs_path_sound hd⟩ hnoconn
    · cases hb : bfs_path g s t with
      | none => rfl
      | some p => exact absurd ⟨p, (bfs_path_sound hb).1⟩ hnoconn
    · unfold dijkstra_shortest_path
      rw [if_pos hmem]
      cases hmc : minCostBy (pathCost w) (simplePaths g s t) with
      | none => rfl
      | some p =>
        obtain ⟨hpmem, _⟩ := minCostBy_mem_min (pathCost w) _ p hmc
        exact absurd ⟨p, (simplePaths_sound hpmem).1⟩ hnoconn
  · refine ⟨?_, ?_, ?_⟩
    · unfold dfs_path; rw [if_neg hmem]
    · unfold bfs_path; rw [if_neg hmem]
    · unfold dijkstra_shortest_path; rw [if_neg hmem]

/-- Witness for the amended C7: a missing start node. -/
theorem C7_witness :
    dfs_path gTwo "X" "A" = none ∧ bfs_path gTwo "X" "A" = none ∧
      dijkstra_shortest_path gTwo wOne "X" "A" = none :=
  C7_failures_all_none gTwo wOne "X" "A" (Or.inl (by decide))

/-- C10: for every graph and every station `s` of the graph, querying a path
from `s` to itself succeeds: both `dfs_path` and `bfs_path` return the
single-node path `[s]`. -/
theorem C10_self_path (g : SGraph) (s : String) (hs : s ∈ g.nodes) :
    dfs_path g s s = some [s] ∧ bfs_path g s s = some [s] := by
  constructor
  · unfold dfs_path
    rw [if_pos ⟨hs, hs⟩, dfsAux, if_pos rfl]
  · unfold bfs_path
    rw [if_pos ⟨hs, hs⟩, bfsAux, if_pos rfl]

/-- Witness for C10 on the path graph. -/
theorem C10_witness :
    dfs_path gW "B" "B" = some ["B"] ∧ bfs_path gW "B" "B" = some ["B"] :=
  C10_self_path gW "B" (by decide)

/-! ### Dict-lookup lemmas for the construction proofs -/

theorem lookupStr_append {β : Type} :
    ∀ (l1 l2 : List (String × β)) (s : String),
      lookupStr (l1 ++ l2) s =
        match lookupStr l1 s with
        | some b => some b
        | none => lookupStr l2 s := by
  intro l1
  induction l1 with
  | nil => intro l2 s; rfl
  | cons p rest ih =>
    intro l2 s
    by_cases hp : p.1 = s
    · simp only [List.cons_append, lookupStr, if_pos hp]
    · simp only [List.cons_append, lookupStr, if_neg hp]
      exact ih l2 s

theorem lookupStr_none {β : Type} :
    ∀ (l : List (String × β)) (s : String),
      lookupStr l s = none → ∀ p ∈ l, p.1 ≠ s := by
  intro l
  induction l with
  | nil => intro s _ p hp; simp at hp
  | cons q rest ih =>
    intro s h p hp
    by_cases hq : q.1 = s
    · simp only [lookupStr, if_pos hq] at h
      simp at h
    · simp only [lookupStr, if_neg hq] at h
      rcases List.mem_cons.mp hp with rfl | hp
      · exact hq
      · exact ih s h p hp

theorem lookupStr_map_upd {β : Type} (f : β → β) (s : String) :
    ∀ (l : List (String × β)) (x : String),
      lookupStr (l.map (fun p => if p.1 = s then (p.1, f p.2) else p)) x =
        if x = s then (lookupStr l x).map f else lookupStr l x := by
  intro l
  induction l with
  | nil => intro x; by_cases hx : x = s <;> simp [lookupStr, hx]
  | cons p rest ih =>
    intro x
    by_cases hps : p.1 = s
    · by_cases hpx : p.1 = x
      · have hxs : x = s := by rw [← hpx]; exact hps
        simp [lookupStr, hps, hpx, hxs]
      · simp only [List.map_cons, if_pos hps, lookupStr, if_neg hpx, ih x]
    · by_cases hpx : p.1 = x
      · have hxs : ¬ x = s := by rw [← hpx]; exact hps
        simp only [List.map_cons, if_neg hps, lookupStr, if_pos hpx, if_neg hxs]
      · simp only [List.map_cons, if_neg hps, lookupStr, if_neg hpx, ih x]

theorem lookupStr_of_mem_nodup {β : Type} :
    ∀ (l : List (String × β)), (l.map (fun p => p.1)).Nodup →
      ∀ p ∈ l, lookupStr l p.1 = some p.2 := by
  intro l
  induction l with
  | nil => intro _ p hp; simp at hp
  | cons q rest ih =>
    intro hnd p hp
    simp only [List.map_cons, List.nodup_cons] at hnd
    rcases List.mem_cons.mp hp with rfl | hp
    · simp [lookupStr]
    · have hqp : ¬ q.1 = p.1 := by
        intro h
        exact hnd.1 (h ▸ List.mem_map_of_mem (fun r => r.1) hp)
      simp only [lookupStr, if_neg hqp]
      exact ih hnd.2 p hp

/-- Effect of one `station_lines` update on the recorded line list of any
station. -/
theorem slAdd_linesOf (sl : List (String × List String)) (s ln : String)
    (x L : String) :
    L ∈ linesOf (slAdd sl s ln) x ↔ L ∈ linesOf sl x ∨ (x = s ∧ L = ln) := by
  unfold slAdd linesOf
  by_cases hs : (lookupStr sl s).isSome
  · rw [if_pos hs]
    rw [lookupStr_map_upd (fun v => v ++ [ln]) s sl x]
    by_cases hx : x = s
    · rw [if_pos hx]
      obtain ⟨l, hl⟩ := Option.isSome_iff_exists.mp hs
      rw [hx, hl]
      simp [eq_comm]
    · rw [if_neg hx]
      simp [hx]
  · rw [if_neg hs]
    have hnone : lookupStr sl s = none := Option.not_isSome_iff_eq_none.mp hs
    rw [lookupStr_append sl [(s, [ln])] x]
    cases hlk : lookupStr sl x with
    | some l =>
      have hxns : ¬ x = s := by
        intro hxs
        rw [hxs, hnone] at hlk
        exact Option.noConfusion hlk
      simp [hlk, hxns]
    | none =>
      by_cases hx : x = s
      · simp only [hlk, lookupStr, if_pos (show (s, [ln]).1 = x from hx.symm)]
        simp [hx]
      · simp only [hlk, lookupStr,
          if_neg (show ¬ (s, [ln]).1 = x from fun h => hx h.symm)]
        simp [hx]

theorem slAdd_keys_nodup (sl : List (String × List String)) (s ln : String)
    (h : (sl.map (fun p => p.1)).Nodup) :
    ((slAdd sl s ln).map (fun p => p.1)).Nodup := by
  unfold slAdd
  by_cases hs : (lookupStr sl s).isSome
  · rw [if_pos hs]
    have hkeys : (sl.map (fun p => if p.1 = s then (p.1, p.2 ++ [ln]) else p)).map
        (fun p => p.1) = sl.map (fun p => p.1) := by
      rw [List.map_map]
      refine List.map_congr_left ?_
      intro p _
      by_cases hp : p.1 = s <;> simp [hp]
    rw [hkeys]
    exact h
  · rw [if_neg hs]
    have hnone : lookupStr sl s = none := by
      cases hlk : lookupStr sl s with
      | none => rfl
      | some l => rw [hlk] at hs; simp at hs
    rw [List.map_append, List.nodup_append]
    refine ⟨h, by simp, ?_⟩
    intro x hx
    rw [List.mem_map] at hx
    obtain ⟨p, hp, rfl⟩ := hx
    simp only [List.map_cons, List.map_nil, List.mem_singleton]
    intro hps
    exact lookupStr_none sl s hnone p hp hps

theorem addNode_mem (ns : List String) (v x : String) :
    x ∈ addNode ns v ↔ x ∈ ns ∨ x = v := by
  unfold addNode
  by_cases hv : v ∈ ns
  · rw [if_pos hv]
    constructor
    · exact Or.inl
    · intro h
      rcases h with h | rfl
      · exact h
      · exact hv
  · rw [if_neg hv]
    simp

theorem addNode_nodup (ns : List String) (v : String) (h : ns.Nodup) :
    (addNode ns v).Nodup := by
  unfold addNode
  by_cases hv : v ∈ ns
  · rw [if_pos hv]; exact h
  · rw [if_neg hv]
    rw [List.nodup_append]
    refine ⟨h, by simp, ?_⟩
    intro x hx
    simp only [List.mem_singleton]
    intro hxv
    exact hv (hxv ▸ hx)

/-! ### Edge-update lemmas -/

theorem sameEdge_refl (k : String × String) : sameEdge k k := Or.inl ⟨rfl, rfl⟩

theorem sameEdge_symm {k1 k2 : String × String} (h : sameEdge k1 k2) :
    sameEdge k2 k1 := by
  rcases h with ⟨h1, h2⟩ | ⟨h1, h2⟩
  · exact Or.inl ⟨h1.symm, h2.symm⟩
  · exact Or.inr ⟨h2.symm, h1.symm⟩

theorem sameEdge_trans {k1 k2 k3 : String × String} (h1 : sameEdge k1 k2)
    (h2 : sameEdge k2 k3) : sameEdge k1 k3 := by
  rcases h1 with ⟨a1, b1⟩ | ⟨a1, b1⟩ <;> rcases h2 with ⟨a2, b2⟩ | ⟨a2, b2⟩
  · exact Or.inl ⟨a1.trans a2, b1.trans b2⟩
  · exact Or.inr ⟨a1.trans a2, b1.trans b2⟩
  · exact Or.inr ⟨a1.trans b2, b1.trans a2⟩
  · exact Or.inl ⟨a1.trans b2, b1.trans a2⟩

/-- An endpoint transports along unordered-pair equality. -/
theorem sameEdge_endpoint {k1 k2 : String × String} {s : String}
    (h : sameEdge k1 k2) (hs : k1.1 = s ∨ k1.2 = s) : k2.1 = s ∨ k2.2 = s := by
  rcases h with ⟨h1, h2⟩ | ⟨h1, h2⟩ <;> rcases hs with hs | hs
  · exact Or.inl (h1 ▸ hs)
  · exact Or.inr (h2 ▸ hs)
  · exact Or.inr (h1 ▸ hs)
  · exact Or.inl (h2 ▸ hs)

theorem findEdge_updEdges_same :
    ∀ (es : List ((String × String) × String × String))
      (k : String × String) (t : String × String) (k2 : String × String),
      sameEdge k k2 → findEdge (updEdges es k t) k2 = some t := by
  intro es
  induction es with
  | nil =>
    intro k t k2 h
    simp only [updEdges, findEdge, if_pos h]
  | cons e rest ih =>
    intro k t k2 h
    by_cases he : sameEdge e.1 k
    · rw [updEdges, if_pos he]
      have : sameEdge e.1 k2 := sameEdge_trans he h
      simp only [findEdge, if_pos this]
    · rw [updEdges, if_neg he]
      have hne : ¬ sameEdge e.1 k2 := by
        intro h2
        exact he (sameEdge_trans h2 (sameEdge_symm h))
      simp only [findEdge, if_neg hne]
      exact ih k t k2 h

theorem findEdge_updEdges_other :
    ∀ (es : List ((String × String) × String × String))
      (k : String × String) (t : String × String) (k2 : String × String),
      ¬ sameEdge k k2 → findEdge (updEdges es k t) k2 = findEdge es k2 := by
  intro es
  induction es with
  | nil =>
    intro k t k2 h
    simp only [updEdges, findEdge, if_neg (fun h2 => h h2)]
  | cons e rest ih =>
    intro k t k2 h
    by_cases he : sameEdge e.1 k
    · rw [updEdges, if_pos he]
      by_cases he2 : sameEdge e.1 k2
      · exact absurd (sameEdge_trans (sameEdge_symm he) he2) h
      · simp only [findEdge, if_neg he2]
    · rw [updEdges, if_neg he]
      by_cases he2 : sameEdge e.1 k2
      · simp only [findEdge, if_pos he2]
      · simp only [findEdge, if_neg he2]
        exact ih k t k2 h

theorem updEdges_keys :
    ∀ (es : List ((String × String) × String × String))
      (k : String × String) (t : String × String),
      ∀ f ∈ updEdges es k t, f.1 = k ∨ ∃ e ∈ es, f.1 = e.1 := by
  intro es
  induction es with
  | nil =>
    intro k t f hf
    rw [updEdges, List.mem_singleton] at hf
    exact Or.inl (by rw [hf])
  | cons e rest ih =>
    intro k t f hf
    by_cases he : sameEdge e.1 k
    · rw [updEdges, if_pos he] at hf
      rcases List.mem_cons.mp hf with rfl | hf
      · exact Or.inr ⟨e, List.mem_cons_self _ _, rfl⟩
      · exact Or.inr ⟨f, List.mem_cons_of_mem _ hf, rfl⟩
    · rw [updEdges, if_neg he] at hf
      rcases List.mem_cons.mp hf with rfl | hf
      · exact Or.inr ⟨f, List.mem_cons_self _ _, rfl⟩
      · rcases ih k t f hf with h | ⟨e2, he2, hfe2⟩
        · exact Or.inl h
        · exact Or.inr ⟨e2, List.mem_cons_of_mem _ he2, hfe2⟩

theorem updEdges_pairwise :
    ∀ (es : List ((String × String) × String × String))
      (k : String × String) (t : String × String),
      es.Pairwise (fun e1 e2 => ¬ sameEdge e1.1 e2.1) →
      (updEdges es k t).Pairwise (fun e1 e2 => ¬ sameEdge e1.1 e2.1) := by
  intro es
  induction es with
  | nil =>
    intro k t _
    simp [updEdges]
  | cons e rest ih =>
    intro k t h
    rw [List.pairwise_cons] at h
    by_cases he : sameEdge e.1 k
    · rw [updEdges, if_pos he]
      rw [List.pairwise_cons]
      exact ⟨h.1, h.2⟩
    · rw [updEdges, if_neg he]
      rw [List.pairwise_cons]
      refine ⟨?_, ih k t h.2⟩
      intro f hf
      rcases updEdges_keys rest k t f hf with hfk | ⟨e2, he2, hfe2⟩
      · rw [hfk]
        exact he
      · rw [hfe2]
        exact h.1 e2 he2

theorem findEdge_of_mem :
    ∀ (es : List ((String × String) × String × String)),
      es.Pairwise (fun e1 e2 => ¬ sameEdge e1.1 e2.1) →
      ∀ e ∈ es, findEdge es e.1 = some e.2 := by
  intro es
  induction es with
  | nil => intro _ e he; simp at he
  | cons f rest ih =>
    intro hp e he
    rw [List.pairwise_cons] at hp
    rcases List.mem_cons.mp he with rfl | he
    · simp only [findEdge, if_pos (sameEdge_refl e.1)]
    · have hne : ¬ sameEdge f.1 e.1 := hp.1 e he
      simp only [findEdge, if_neg hne]
      exact ih hp.2 e he

theorem findEdge_mem :
    ∀ (es : List ((String × String) × String × String))
      (k : String × String) (t : String × String),
      findEdge es k = some t → ∃ k2, (k2, t) ∈ es ∧ sameEdge k2 k := by
  intro es
  induction es with
  | nil => intro k t h; simp [findEdge] at h
  | cons e rest ih =>
    intro k t h
    by_cases he : sameEdge e.1 k
    · rw [findEdge, if_pos he, Option.some_inj] at h
      exact ⟨e.1, by rw [← h]; exact List.mem_cons_self _ _, he⟩
    · rw [findEdge, if_neg he] at h
      obtain ⟨k2, hk2, hs⟩ := ih k t h
      exact ⟨k2, List.mem_cons_of_mem _ hk2, hs⟩

theorem lastTag_mem :
    ∀ (evs : List (String × String × String × String)) (k : String × String)
      (t : String × String), lastTag evs k = some t →
      ∃ ev ∈ evs, sameEdge (ev.2.2.1, ev.2.2.2) k ∧ (ev.1, ev.2.1) = t := by
  intro evs
  induction evs with
  | nil => intro k t h; simp [lastTag] at h
  | cons ev rest ih =>
    intro k t h
    rw [lastTag] at h
    cases hrec : lastTag rest k with
    | some t2 =>
      rw [hrec] at h
      change some t2 = some t at h
      rw [Option.some_inj] at h
      subst h
      obtain ⟨ev2, hev2, hs, ht⟩ := ih k t2 hrec
      exact ⟨ev2, List.mem_cons_of_mem _ hev2, hs, ht⟩
    | none =>
      rw [hrec] at h
      change (if sameEdge (ev.2.2.1, ev.2.2.2) k then some (ev.1, ev.2.1)
        else none) = some t at h
      by_cases hs : sameEdge (ev.2.2.1, ev.2.2.2) k
      · rw [if_pos hs, Option.some_inj] at h
        exact ⟨ev, List.mem_cons_self _ _, hs, h⟩
      · rw [if_neg hs] at h
        simp at h

theorem lastTag_isSome :
    ∀ (evs : List (String × String × String × String)) (k : String × String),
      (∃ ev ∈ evs, sameEdge (ev.2.2.1, ev.2.2.2) k) →
      ∃ t, lastTag evs k = some t := by
  intro evs
  induction evs with
  | nil => intro k h; simp at h
  | cons ev rest ih =>
    intro k h
    rw [lastTag]
    cases hrec : lastTag rest k with
    | some t2 => exact ⟨t2, rfl⟩
    | none =>
      obtain ⟨ev2, hev2, hs⟩ := h
      rcases List.mem_cons.mp hev2 with rfl | hev2
      · exact ⟨(ev2.1, ev2.2.1), by rw [if_pos hs]⟩
      · obtain ⟨t, ht⟩ := ih k ⟨ev2, hev2, hs⟩
        rw [ht] at hrec
        exact Option.noConfusion hrec

/-! ### The construction as a fold over consecutive-pair events -/

theorem processLine_eq (st : BuildState) (ln : String) (stations : List String)
    (c : String) :
    ((processLine st ln stations c).G, (processLine st ln stations c).sl) =
      (lineEvents ln c stations).foldl evStep (st.G, st.sl) := by
  unfold processLine lineEvents
  rw [List.foldl_map]
  rfl

theorem create_foldl_eq (data : List (String × List String × String)) :
    ∀ (st : BuildState),
      ((data.foldl (fun st2 e => processLine st2 e.1 e.2.1 e.2.2) st).G,
        (data.foldl (fun st2 e => processLine st2 e.1 e.2.1 e.2.2) st).sl) =
        (events data).foldl evStep (st.G, st.sl) := by
  induction data with
  | nil => intro st; rfl
  | cons e rest ih =>
    intro st
    have hev : events (e :: rest) = lineEvents e.1 e.2.2 e.2.1 ++ events rest := by
      simp [events]
    rw [List.foldl_cons, hev, List.foldl_append, ← processLine_eq]
    exact ih (processLine st e.1 e.2.1 e.2.2)

theorem create_G_eq (data : List (String × List String × String)) :
    (create_graph_from_ubahn data).G =
      ((events data).foldl evStep (⟨[], []⟩, [])).1 := by
  have := create_foldl_eq data ⟨⟨[], []⟩, [], []⟩
  unfold create_graph_from_ubahn
  rw [show (⟨⟨[], []⟩, [], []⟩ : BuildState).G = (⟨[], []⟩ : TGraph) from rfl] at this
  exact congrArg Prod.fst this

theorem create_sl_eq (data : List (String × List String × String)) :
    (create_graph_from_ubahn data).sl =
      ((events data).foldl evStep (⟨[], []⟩, [])).2 := by
  have := create_foldl_eq data ⟨⟨[], []⟩, [], []⟩
  unfold create_graph_from_ubahn
  exact congrArg Prod.snd this

theorem foldl_nodes_mem (evs : List (String × String × String × String)) :
    ∀ (init : TGraph × List (String × List String)) (x : String),
      x ∈ (evs.foldl evStep init).1.nodes ↔
        x ∈ init.1.nodes ∨ ∃ ev ∈ evs, x = ev.2.2.1 ∨ x = ev.2.2.2 := by
  induction evs with
  | nil => intro init x; simp
  | cons ev rest ih =>
    intro init x
    rw [List.foldl_cons, ih (evStep init ev) x]
    have hstep : x ∈ (evStep init ev).1.nodes ↔
        x ∈ init.1.nodes ∨ x = ev.2.2.1 ∨ x = ev.2.2.2 := by
      show x ∈ addNode (addNode init.1.nodes ev.2.2.1) ev.2.2.2 ↔ _
      rw [addNode_mem, addNode_mem]
      tauto
    rw [hstep]
    constructor
    · intro h
      rcases h with (h | h | h) | ⟨ev2, hev2, h⟩
      · exact Or.inl h
      · exact Or.inr ⟨ev, List.mem_cons_self _ _, Or.inl h⟩
      · exact Or.inr ⟨ev, List.mem_cons_self _ _, Or.inr h⟩
      · exact Or.inr ⟨ev2, List.mem_cons_of_mem _ hev2, h⟩
    · intro h
      rcases h with h | ⟨ev2, hev2, h⟩
      · exact Or.inl (Or.inl h)
      · rcases List.mem_cons.mp hev2 with rfl | hev2
        · exact Or.inl (Or.inr h)
        · exact Or.inr ⟨ev2, hev2, h⟩

theorem foldl_nodes_nodup (evs : List (String × String × String × String)) :
    ∀ (init : TGraph × List (String × List String)),
      init.1.nodes.Nodup → (evs.foldl evStep init).1.nodes.Nodup := by
  induction evs with
  | nil => intro init h; exact h
  | cons ev rest ih =>
    intro init h
    rw [List.foldl_cons]
    refine ih (evStep init ev) ?_
    exact addNode_nodup _ _ (addNode_nodup _ _ h)

theorem foldl_sl_mem (evs : List (String × String × String × String)) :
    ∀ (init : TGraph × List (String × List String)) (x L : String),
      L ∈ linesOf (evs.foldl evStep init).2 x ↔
        L ∈ linesOf init.2 x ∨
          ∃ ev ∈ evs, ev.1 = L ∧ (x = ev.2.2.1 ∨ x = ev.2.2.2) := by
  induction evs with
  | nil => intro init x L; simp
  | cons ev rest ih =>
    intro init x L
    rw [List.foldl_cons, ih (evStep init ev) x L]
    have hstep : L ∈ linesOf (evStep init ev).2 x ↔
        L ∈ linesOf init.2 x ∨ (ev.1 = L ∧ (x = ev.2.2.1 ∨ x = ev.2.2.2)) := by
      show L ∈ linesOf (slAdd (slAdd init.2 ev.2.2.1 ev.1) ev.2.2.2 ev.1) x ↔ _
      rw [slAdd_linesOf, slAdd_linesOf]
      constructor
      · intro h
        rcases h with (h | ⟨hx, hL⟩) | ⟨hx, hL⟩
        · exact Or.inl h
        · exact Or.inr ⟨hL.symm, Or.inl hx⟩
        · exact Or.inr ⟨hL.symm, Or.inr hx⟩
      · intro h
        rcases h with h | ⟨hL, hx | hx⟩
        · exact Or.inl (Or.inl h)
        · exact Or.inl (Or.inr ⟨hx, hL.symm⟩)
        · exact Or.inr ⟨hx, hL.symm⟩
    rw [hstep]
    constructor
    · intro h
      rcases h with (h | h) | ⟨ev2, hev2, h⟩
      · exact Or.inl h
      · exact Or.inr ⟨ev, List.mem_cons_self _ _, h⟩
      · exact Or.inr ⟨ev2, List.mem_cons_of_mem _ hev2, h⟩
    · intro h
      rcases h with h | ⟨ev2, hev2, h⟩
      · exact Or.inl (Or.inl h)
      · rcases List.mem_cons.mp hev2 with rfl | hev2
        · exact Or.inl (Or.inr h)
        · exact Or.inr ⟨ev2, hev2, h⟩

theorem foldl_sl_keys_nodup (evs : List (String × String × String × String)) :
    ∀ (init : TGraph × List (String × List String)),
      (init.2.map (fun p => p.1)).Nodup →
      ((evs.foldl evStep init).2.map (fun p => p.1)).Nodup := by
  induction evs with
  | nil => intro init h; exact h
  | cons ev rest ih =>
    intro init h
    rw [List.foldl_cons]
    refine ih (evStep init ev) ?_
    exact slAdd_keys_nodup _ _ _ (slAdd_keys_nodup _ _ _ h)

theorem foldl_findEdge (evs : List (String × String × String × String)) :
    ∀ (init : TGraph × List (String × List String)) (k : String × String),
      findEdge (evs.foldl evStep init).1.edges k =
        match lastTag evs k with
        | some t => some t
        | none => findEdge init.1.edges k := by
  induction evs with
  | nil => intro init k; rfl
  | cons ev rest ih =>
    intro init k
    rw [List.foldl_cons, ih (evStep init ev) k]
    rw [lastTag]
    cases hrec : lastTag rest k with
    | some t => rfl
    | none =>
      have hedges : (evStep init ev).1.edges =
          updEdges init.1.edges (ev.2.2.1, ev.2.2.2) (ev.1, ev.2.1) := rfl
      by_cases hs : sameEdge (ev.2.2.1, ev.2.2.2) k
      · rw [hedges]
        rw [findEdge_updEdges_same init.1.edges _ _ k hs]
        rw [if_pos hs]
      · rw [hedges]
        rw [findEdge_updEdges_other init.1.edges _ _ k hs]
        rw [if_neg hs]

theorem foldl_edges_pairwise (evs : List (String × String × String × String)) :
    ∀ (init : TGraph × List (String × List String)),
      init.1.edges.Pairwise (fun e1 e2 => ¬ sameEdge e1.1 e2.1) →
      (evs.foldl evStep init).1.edges.Pairwise
        (fun e1 e2 => ¬ sameEdge e1.1 e2.1) := by
  induction evs with
  | nil => intro init h; exact h
  | cons ev rest ih =>
    intro init h
    rw [List.foldl_cons]
    exact ih (evStep init ev) (updEdges_pairwise _ _ _ h)

/-- A station lies on a consecutive pair of a station list exactly when the
list has at least two entries and contains the station. -/
theorem mem_zip_pairs :
    ∀ (stations : List String) (v : String),
      (∃ pr ∈ stations.zip stations.tail, v = pr.1 ∨ v = pr.2) ↔
        (v ∈ stations ∧ 2 ≤ stations.length) := by
  intro stations
  induction stations with
  | nil => intro v; simp
  | cons a l ih =>
    intro v
    cases l with
    | nil => simp
    | cons b l2 =>
      have hzip : (a :: b :: l2).zip (a :: b :: l2).tail =
          (a, b) :: (b :: l2).zip (b :: l2).tail := rfl
      rw [hzip]
      constructor
      · intro ⟨pr, hpr, hv⟩
        rcases List.mem_cons.mp hpr with rfl | hpr
        · simp at hv
          rcases hv with rfl | rfl
          · exact ⟨List.mem_cons_self _ _, by simp⟩
          · exact ⟨List.mem_cons_of_mem _ (List.mem_cons_self _ _), by simp⟩
        · have := (ih v).mp ⟨pr, hpr, hv⟩
          exact ⟨List.mem_cons_of_mem _ this.1, by simp⟩
      · intro ⟨hv, _⟩
        rcases List.mem_cons.mp hv with rfl | hv
        · exact ⟨(v, b), List.mem_cons_self _ _, Or.inl rfl⟩
        · rcases List.mem_cons.mp hv with rfl | hv
          · exact ⟨(a, v), List.mem_cons_self _ _, Or.inr rfl⟩
          · have hl2 : v ∈ b :: l2 ∧ 2 ≤ (b :: l2).length := by
              refine ⟨List.mem_cons_of_mem _ hv, ?_⟩
              cases l2 with
              | nil => simp at hv
              | cons c l3 => simp
            obtain ⟨pr, hpr, hveq⟩ := (ih v).mpr hl2
            exact ⟨pr, List.mem_cons_of_mem _ hpr, hveq⟩

/-! ### Claim theorems: graph construction -/

/-- C3, counterexample: the input `dataSingle` names station `"A"` on a
single-station line, yet construction registers no node at all — nodes are
only ever created by `G.add_edge`, and a one-station line produces no edge. -/
theorem C3_counterexample :
    "A" ∈ dataSingle.flatMap (fun e => e.2.1) ∧
      "A" ∉ (create_graph_from_ubahn dataSingle).G.nodes ∧
      (create_graph_from_ubahn dataSingle).G.nodes = [] :=
  ⟨by decide, by decide, by decide⟩

/-- C3, amended: graph construction registers a station as a node (exactly
once — the node list is duplicate-free) precisely when the station appears on
a line whose station list has length at least 2; a line of length 1 produces
no edges and its station is not registered. -/
theorem C3_registered_nodes (data : List (String × List String × String)) :
    (create_graph_from_ubahn data).G.nodes.Nodup ∧
    ∀ v, (v ∈ (create_graph_from_ubahn data).G.nodes ↔
      ∃ e ∈ data, v ∈ e.2.1 ∧ 2 ≤ e.2.1.length) := by
  constructor
  · rw [create_G_eq]
    exact foldl_nodes_nodup (events data) _ (by simp)
  · intro v
    rw [create_G_eq, foldl_nodes_mem]
    constructor
    · intro h
      rcases h with h | ⟨ev, hev, hv⟩
      · simp at h
      · rw [events, List.mem_flatMap] at hev
        obtain ⟨e, he, hev⟩ := hev
        rw [lineEvents, List.mem_map] at hev
        obtain ⟨pr, hpr, rfl⟩ := hev
        exact ⟨e, he, (mem_zip_pairs e.2.1 v).mp ⟨pr, hpr, hv⟩⟩
    · intro ⟨e, he, hv⟩
      obtain ⟨pr, hpr, hveq⟩ := (mem_zip_pairs e.2.1 v).mpr hv
      right
      refine ⟨(e.1, e.2.2, pr.1, pr.2), ?_, hveq⟩
      rw [events, List.mem_flatMap]
      refine ⟨e, he, ?_⟩
      rw [lineEvents, List.mem_map]
      exact ⟨pr, hpr, rfl⟩

/-- C4, counterexample: with two lines both connecting `A` and `B`
consecutively, the single edge's `line` tag is overwritten by the later line,
so station `A` records line `L1` although no edge incident to `A` carries the
tag `L1` — the recorded line-set is not the union of incident edge tags. -/
theorem C4_counterexample :
    "L1" ∈ linesOf (create_graph_from_ubahn dataShared).sl "A" ∧
      ¬ ∃ e ∈ (create_graph_from_ubahn dataShared).G.edges,
          (e.1.1 = "A" ∨ e.1.2 = "A") ∧ e.2.1 = "L1" :=
  ⟨by decide, by decide⟩

/-- C4, amended: provided no two distinct lines connect the same unordered
consecutive station pair, a station's recorded line list contains a line name
exactly when some edge incident to the station carries that line tag.  (When
two lines do share a pair the later line overwrites the tag and the equality
fails, as `C4_counterexample` shows.) -/
theorem C4_lines_eq_incident_tags (data : List (String × List String × String))
    (hns : NoSharedPair data) :
    ∀ s L, L ∈ linesOf (create_graph_from_ubahn data).sl s ↔
      ∃ e ∈ (create_graph_from_ubahn data).G.edges,
        (e.1.1 = s ∨ e.1.2 = s) ∧ e.2.1 = L := by
  intro s L
  rw [create_sl_eq, create_G_eq, foldl_sl_mem]
  constructor
  · intro h
    rcases h with h | ⟨ev, hev, hL, hs⟩
    · simp [linesOf, lookupStr] at h
    · obtain ⟨t, ht⟩ := lastTag_isSome (events data) (ev.2.2.1, ev.2.2.2)
        ⟨ev, hev, sameEdge_refl _⟩
      have hfe : findEdge ((events data).foldl evStep (⟨[], []⟩, [])).1.edges
          (ev.2.2.1, ev.2.2.2) = some t := by
        rw [foldl_findEdge, ht]
      obtain ⟨k2, hk2mem, hk2same⟩ := findEdge_mem _ _ t hfe
      obtain ⟨ev2, hev2, hs2, ht2⟩ := lastTag_mem (events data) _ t ht
      have hL2 : ev2.1 = L := by
        rw [hns ev2 hev2 ev hev hs2]
        exact hL
      refine ⟨(k2, t), hk2mem, ?_, ?_⟩
      · refine sameEdge_endpoint (sameEdge_symm hk2same) ?_
        rcases hs with hs | hs
        · exact Or.inl hs.symm
        · exact Or.inr hs.symm
      · show t.1 = L
        rw [← ht2]
        exact hL2
  · intro ⟨e, hemem, hinc, htag⟩
    have hpw := foldl_edges_pairwise (events data) (⟨[], []⟩, []) (by simp)
    have hfe := findEdge_of_mem _ hpw e hemem
    rw [foldl_findEdge] at hfe
    cases hlt : lastTag (events data) e.1 with
    | none =>
      rw [hlt] at hfe
      change (none : Option (String × String)) = some e.2 at hfe
      exact Option.noConfusion hfe
    | some t =>
      rw [hlt] at hfe
      change some t = some e.2 at hfe
      rw [Option.some_inj] at hfe
      obtain ⟨ev2, hev2, hs2, ht2⟩ := lastTag_mem _ _ _ hlt
      right
      refine ⟨ev2, hev2, ?_, ?_⟩
      · show ev2.1 = L
        have : (ev2.1, ev2.2.1).1 = e.2.1 := by rw [ht2, hfe]
        rw [← htag]
        exact this
      · have := sameEdge_endpoint (sameEdge_symm hs2) hinc
        rcases this with h | h
        · exact Or.inl h.symm
        · exact Or.inr h.symm

/-- Witness for the amended C4: Scenario A of the spec, station `S3`,
line `Red`. -/
theorem C4_witness :
    "Red" ∈ linesOf (create_graph_from_ubahn dataW).sl "S3" ↔
      ∃ e ∈ (create_graph_from_ubahn dataW).G.edges,
        (e.1.1 = "S3" ∨ e.1.2 = "S3") ∧ e.2.1 = "Red" :=
  C4_lines_eq_incident_tags dataW (by decide) "S3" "Red"

/-! ### Stability of the insertion sort used for the transfer listing -/

theorem orderedInsert_filter_eq {α : Type} (k : α → Nat) (c : Nat) (x : α)
    (hk : k x = c) :
    ∀ l : List α,
      (l.orderedInsert (fun a b => k b ≤ k a) x).filter
          (fun y => decide (k y = c)) =
        x :: l.filter (fun y => decide (k y = c)) := by
  intro l
  induction l with
  | nil => simp [hk]
  | cons b l ih =>
    rw [List.orderedInsert]
    by_cases hr : k b ≤ k x
    · rw [if_pos hr]
      simp [List.filter_cons, hk]
    · rw [if_neg hr]
      have hb : ¬ (k b = c) := by omega
      simp [List.filter_cons, hb, ih]

theorem orderedInsert_filter_ne {α : Type} (k : α → Nat) (c : Nat) (x : α)
    (hk : ¬ k x = c) :
    ∀ l : List α,
      (l.orderedInsert (fun a b => k b ≤ k a) x).filter
          (fun y => decide (k y = c)) =
        l.filter (fun y => decide (k y = c)) := by
  intro l
  induction l with
  | nil => simp [hk]
  | cons b l ih =>
    rw [List.orderedInsert]
    by_cases hr : k b ≤ k x
    · rw [if_pos hr]
      simp [List.filter_cons, hk]
    · rw [if_neg hr]
      by_cases hb : k b = c <;>
        simp [List.filter_cons, hb, ih]

/-- The stable insertion sort by key leaves each key class in its original
order: filtering by any key value commutes with sorting. -/
theorem insertionSort_filter {α : Type} (k : α → Nat) (c : Nat) :
    ∀ l : List α,
      ((l.insertionSort (fun a b => k b ≤ k a)).filter
          (fun y => decide (k y = c))) =
        l.filter (fun y => decide (k y = c)) := by
  intro l
  induction l with
  | nil => rfl
  | cons x l ih =>
    rw [List.insertionSort]
    by_cases hk : k x = c
    · rw [orderedInsert_filter_eq k c x hk, ih, List.filter_cons]
      simp [hk]
    · rw [orderedInsert_filter_ne k c x hk, ih, List.filter_cons]
      simp [hk]

/-! ### Claim theorems: transfer-station listing -/

/-- C9, counterexample: on `dataTie` the two transfer stations `B` and `A`
have the same line count and first-appearance order `B` before `A`; the
listing keeps them in that order, so it is not ordered with ties broken by
station name ascending (`A` is alphabetically before `B`). -/
theorem C9_counterexample :
    transferListing (create_graph_from_ubahn dataTie).sl =
      [("B", 2, ["L1", "L2"]), ("A", 2, ["L1", "L2"])] ∧
      pyStrLt "A" "B" ∧
      ¬ (transferListing (create_graph_from_ubahn dataTie).sl).Pairwise
          claimOrder :=
  ⟨by decide, by decide, by decide⟩

/-- C9, amended: the analyzer's transfer listing contains exactly the
stations with at least 2 distinct recorded lines, ordered by line count
descending; stations with equal line counts appear in first-appearance order
(the order of the `station_lines` dict), not sorted by name. -/
theorem C9_transfer_listing (data : List (String × List String × String)) :
    (transferListing (create_graph_from_ubahn data).sl).Pairwise
      (fun x y => y.2.1 ≤ x.2.1) ∧
    (∀ c, (transferListing (create_graph_from_ubahn data).sl).filter
        (fun y : String × Nat × List String => decide (y.2.1 = c)) =
      (transferBase (create_graph_from_ubahn data).sl).filter
        (fun y : String × Nat × List String => decide (y.2.1 = c))) ∧
    (∀ s, (∃ n ls,
        (s, n, ls) ∈ transferListing (create_graph_from_ubahn data).sl) ↔
      2 ≤ (linesOf (create_graph_from_ubahn data).sl s).dedup.length) := by
  refine ⟨?_, ?_, ?_⟩
  · haveI : IsTotal (String × Nat × List String)
        (fun x y => y.2.1 ≤ x.2.1) := ⟨fun a b => le_total b.2.1 a.2.1⟩
    haveI : IsTrans (String × Nat × List String)
        (fun x y => y.2.1 ≤ x.2.1) := ⟨fun a b c h1 h2 => le_trans h2 h1⟩
    exact List.sorted_insertionSort _ _
  · intro c
    exact insertionSort_filter (fun y : String × Nat × List String => y.2.1) c _
  · intro s
    have hperm : List.Perm (transferListing (create_graph_from_ubahn data).sl)
        (transferBase (create_graph_from_ubahn data).sl) :=
      List.perm_insertionSort _ _
    have hnd : ((create_graph_from_ubahn data).sl.map (fun p => p.1)).Nodup := by
      rw [create_sl_eq]
      exact foldl_sl_keys_nodup (events data) _ (by simp)
    constructor
    · intro ⟨n, ls, hmem⟩
      rw [hperm.mem_iff] at hmem
      rw [transferBase, List.mem_filterMap] at hmem
      obtain ⟨p, hp, hfp⟩ := hmem
      by_cases hcond : 1 < p.2.dedup.length
      · rw [if_pos hcond, Option.some_inj] at hfp
        have hps : p.1 = s := congrArg (fun t => t.1) hfp
        have hlo : linesOf (create_graph_from_ubahn data).sl s = p.2 := by
          unfold linesOf
          rw [← hps, lookupStr_of_mem_nodup _ hnd p hp]
          rfl
        rw [hlo]
        omega
      · rw [if_neg hcond] at hfp
        exact Option.noConfusion hfp
    · intro hcount
      cases hlk : lookupStr (create_graph_from_ubahn data).sl s with
      | none =>
        rw [linesOf, hlk] at hcount
        simp at hcount
      | some l =>
        have hmem := lookupStr_mem _ s l hlk
        have hl : linesOf (create_graph_from_ubahn data).sl s = l := by
          rw [linesOf, hlk]; rfl
        rw [hl] at hcount
        refine ⟨l.dedup.length, l.dedup.insertionSort pyStrLe, ?_⟩
        rw [hperm.mem_iff, transferBase, List.mem_filterMap]
        refine ⟨(s, l), hmem, ?_⟩
        rw [if_pos (show 1 < l.dedup.length by omega)]

/-- Witness for the amended C9 on Scenario A (lines `Red` and `Blue` meeting
at `S3`). -/
theorem C9_witness :
    (transferListing (create_graph_from_ubahn dataW).sl).Pairwise
        (fun x y => y.2.1 ≤ x.2.1) ∧
      ((∃ n ls,
          ("S3", n, ls) ∈ transferListing (create_graph_from_ubahn dataW).sl) ↔
        2 ≤ (linesOf (create_graph_from_ubahn dataW).sl "S3").dedup.length) :=
  ⟨(C9_transfer_listing dataW).1, (C9_transfer_listing dataW).2.2 "S3"⟩

/-! ### Rounding lemmas and the weight-assignment claims -/

/-- `⌊q + 1 / 2⌋` of small rationals, used for the tie cases of rounding. -/
theorem floor_three_quarters : ⌊(3 : ℚ) / 4⌋ = 0 := by
  rw [Int.floor_eq_iff]
  norm_num

theorem floor_five_quarters : ⌊(5 : ℚ) / 4⌋ = 1 := by
  rw [Int.floor_eq_iff]
  norm_num

/-- Round-half-to-even always lands on the floor or the ceiling. -/
theorem rhe_bounds (x : ℚ) :
    ⌊x⌋ ≤ roundHalfEven x ∧ roundHalfEven x ≤ ⌈x⌉ := by
  unfold roundHalfEven
  by_cases hf : Int.fract x = 1 / 2
  · rw [if_pos hf]
    have hx : x = (⌊x⌋ : ℚ) + 1 / 2 := by
      have := Int.fract_add_floor x
      rw [hf] at this
      linarith
    rcases Int.even_or_odd ⌊x⌋ with ⟨m, hm⟩ | ⟨m, hm⟩
    · have hx2 : x / 2 = (m : ℚ) + 1 / 4 := by
        rw [hx, hm]; push_cast; ring
      have hr : round (x / 2) = m := by
        rw [hx2, round_int_add, round_eq]
        have h34 : (1 : ℚ) / 4 + 1 / 2 = 3 / 4 := by norm_num
        rw [h34, floor_three_quarters, add_zero]
      have hfc := Int.floor_le_ceil x
      rw [hr, hm]
      rw [hm] at hfc
      exact ⟨by omega, by omega⟩
    · have hx2 : x / 2 = (m : ℚ) + 3 / 4 := by
        rw [hx, hm]; push_cast; ring
      have hr : round (x / 2) = m + 1 := by
        rw [hx2, round_int_add, round_eq]
        have h54 : (3 : ℚ) / 4 + 1 / 2 = 5 / 4 := by norm_num
        rw [h54, floor_five_quarters]
      have hceil : ⌊x⌋ + 1 ≤ ⌈x⌉ := by
        have hne : (⌊x⌋ : ℤ) < ⌈x⌉ := by
          by_contra hle
          push_neg at hle
          have h1 := Int.le_ceil x
          have h2 : ((⌈x⌉ : ℤ) : ℚ) ≤ ((⌊x⌋ : ℤ) : ℚ) := by exact_mod_cast hle
          have h3 : x ≤ (⌊x⌋ : ℚ) := le_trans h1 h2
          rw [hx] at h3
          linarith
        omega
      rw [hr, hm]
      rw [hm] at hceil
      exact ⟨by omega, by omega⟩
  · rw [if_neg hf]
    constructor
    · rw [round_eq]
      exact Int.floor_le_floor (by linarith)
    · rw [round_eq, Int.floor_le_iff]
      have := Int.le_ceil x
      linarith

/-- Rounding fixes exact hundredths. -/
theorem round2_fix (n : ℤ) : round2 ((n : ℚ) / 100) = (n : ℚ) / 100 := by
  unfold round2 roundHalfEven
  have h100 : (100 : ℚ) * ((n : ℚ) / 100) = (n : ℚ) := by
    field_simp
  rw [h100]
  rw [if_neg (by rw [Int.fract_intCast]; norm_num)]
  rw [round_intCast]

theorem round2_uniform_bounds {mn mx u : ℚ} (hmn : ∃ k : ℤ, mn = k / 100)
    (hmx : ∃ k : ℤ, mx = k / 100) (hlt : mn < mx) (hu0 : 0 ≤ u) (hu1 : u < 1) :
    mn ≤ round2 (uniform mn mx u) ∧ round2 (uniform mn mx u) ≤ mx := by
  obtain ⟨a, ha⟩ := hmn
  obtain ⟨b, hb⟩ := hmx
  have hraw1 : mn ≤ uniform mn mx u := by
    unfold uniform
    nlinarith
  have hraw2 : uniform mn mx u < mx := by
    unfold uniform
    nlinarith
  have h1 : (a : ℚ) ≤ 100 * uniform mn mx u := by
    have : (a : ℚ) = 100 * mn := by rw [ha]; field_simp
    linarith
  have h2 : 100 * uniform mn mx u ≤ (b : ℚ) := by
    have : (b : ℚ) = 100 * mx := by rw [hb]; field_simp
    linarith
  have hfl : a ≤ ⌊100 * uniform mn mx u⌋ := Int.le_floor.mpr h1
  have hcl : ⌈100 * uniform mn mx u⌉ ≤ b := Int.ceil_le.mpr h2
  obtain ⟨hb1, hb2⟩ := rhe_bounds (100 * uniform mn mx u)
  unfold round2
  constructor
  · have hcast : (a : ℚ) ≤ (roundHalfEven (100 * uniform mn mx u) : ℚ) := by
      exact_mod_cast le_trans hfl hb1
    linarith
  · have hcast : (roundHalfEven (100 * uniform mn mx u) : ℚ) ≤ (b : ℚ) := by
      exact_mod_cast le_trans hb2 hcl
    linarith

/-- C5: the weight assignment is a deterministic function of the graph's edge
list, the weight range and the seed.  The incoming state `r1` / `r2` of the
global generator is irrelevant because the function begins by reseeding it
with `random.seed(seed)`, so two invocations with the same graph, range and
seed produce identical weights on every edge. -/
theorem C5_weights_deterministic {R : Type} (pySeed : Int → R)
    (pyNext : R → ℚ × R) (r1 r2 : R)
    (edges : List ((String × String) × String × String))
    (min_weight max_weight : ℚ) (seed : Int) :
    (add_random_weights pySeed pyNext r1 edges min_weight max_weight seed).1 =
      (add_random_weights pySeed pyNext r2 edges min_weight max_weight seed).1 :=
  rfl

/-- C8, amended: provided the range bounds are exact hundredths (as in every
use in the repository, `2` and `3`) with `0 < min_weight < max_weight`, every
assigned weight lies in `[min_weight, max_weight]`, is fixed by rounding to
two decimal places, and is strictly positive.  (For range bounds that are not
exact hundredths the rounding can leave the range or reach `0`, see
`C8_counterexample`.) -/
theorem C8_weights_in_range {R : Type} (pySeed : Int → R) (pyNext : R → ℚ × R)
    (rg : R) (edges : List ((String × String) × String × String))
    (min_weight max_weight : ℚ) (seed : Int)
    (hdraw : ∀ st : R, 0 ≤ (pyNext st).1 ∧ (pyNext st).1 < 1)
    (hmn : ∃ k : ℤ, min_weight = k / 100) (hmx : ∃ k : ℤ, max_weight = k / 100)
    (h0 : 0 < min_weight) (hlt : min_weight < max_weight) :
    ∀ e ∈ (add_random_weights pySeed pyNext rg edges min_weight max_weight seed).1,
      min_weight ≤ e.2 ∧ e.2 ≤ max_weight ∧ 0 < e.2 ∧ round2 e.2 = e.2 := by
  unfold add_random_weights
  have main : ∀ (eds : List ((String × String) × String × String))
      (acc : List ((String × String) × ℚ) × R),
      (∀ e ∈ acc.1, min_weight ≤ e.2 ∧ e.2 ≤ max_weight ∧ 0 < e.2 ∧
        round2 e.2 = e.2) →
      ∀ e ∈ (eds.foldl
        (fun acc2 e2 =>
          (acc2.1 ++ [(e2.1,
            round2 (uniform min_weight max_weight (pyNext acc2.2).1))],
            (pyNext acc2.2).2)) acc).1,
        min_weight ≤ e.2 ∧ e.2 ≤ max_weight ∧ 0 < e.2 ∧ round2 e.2 = e.2 := by
    intro eds
    induction eds with
    | nil => intro acc hacc e he; exact hacc e he
    | cons e0 rest ih =>
      intro acc hacc e he
      rw [List.foldl_cons] at he
      refine ih _ ?_ e he
      intro f hf
      rw [List.mem_append] at hf
      rcases hf with hf | hf
      · exact hacc f hf
      · rw [List.mem_singleton] at hf
        subst hf
        obtain ⟨hu0, hu1⟩ := hdraw acc.2
        obtain ⟨hlo, hhi⟩ := round2_uniform_bounds hmn hmx hlt hu0 hu1
        refine ⟨hlo, hhi, lt_of_lt_of_le h0 hlo, ?_⟩
        show round2 (round2 (uniform min_weight max_weight (pyNext acc.2).1)) =
          round2 (uniform min_weight max_weight (pyNext acc.2).1)
        unfold round2
        exact round2_fix _
  exact main edges ([], pySeed seed) (by intro e he; simp at he)

/-- C8, counterexample: with the valid range `0 < 1/1000 < 1/500` and the
draw `0.6394267984578837` — the first value CPython's generator produces
after `random.seed(42)` — the assigned weight is
`round(0.0016394267984578837, 2) = 0.0`: it falls below `min_weight` and is
not strictly positive, refuting the claimed invariant for general ranges. -/
theorem C8_counterexample :
    ((0 : ℚ) < 1 / 1000 ∧ (1 : ℚ) / 1000 < 1 / 500) ∧
    (add_random_weights (fun _ => ()) pyMT42 () edges1
        (1 / 1000) (1 / 500) 42).1 = [(("A", "B"), 0)] ∧
    ¬ ∀ e ∈ (add_random_weights (fun _ => ()) pyMT42 () edges1
        (1 / 1000) (1 / 500) 42).1,
      (1 : ℚ) / 1000 ≤ e.2 ∧ e.2 ≤ 1 / 500 ∧ 0 < e.2 := by
  have hw : round2 (uniform (1 / 1000) (1 / 500)
      (6394267984578837 / 10000000000000000)) = 0 := by
    have huni : uniform ((1 : ℚ) / 1000) (1 / 500)
        (6394267984578837 / 10000000000000000) =
        16394267984578837 / 10000000000000000000 := by
      unfold uniform; norm_num
    unfold round2 roundHalfEven
    rw [huni]
    have hy : (100 : ℚ) * (16394267984578837 / 10000000000000000000) =
        16394267984578837 / 100000000000000000 := by norm_num
    rw [hy]
    have hfl : ⌊(16394267984578837 : ℚ) / 100000000000000000⌋ = 0 := by
      rw [Int.floor_eq_iff]; norm_num
    have hfr : Int.fract ((16394267984578837 : ℚ) / 100000000000000000) =
        16394267984578837 / 100000000000000000 := by
      unfold Int.fract
      rw [hfl]
      norm_num
    rw [if_neg (by rw [hfr]; norm_num)]
    rw [round_eq]
    have hsum : (16394267984578837 : ℚ) / 100000000000000000 + 1 / 2 =
        66394267984578837 / 100000000000000000 := by norm_num
    rw [hsum]
    have hfl2 : ⌊(66394267984578837 : ℚ) / 100000000000000000⌋ = 0 := by
      rw [Int.floor_eq_iff]; norm_num
    rw [hfl2]
    norm_num
  have hlist : (add_random_weights (fun _ => ()) pyMT42 () edges1
      (1 / 1000) (1 / 500) 42).1 = [(("A", "B"), (0 : ℚ))] := by
    unfold add_random_weights edges1
    simp only [List.foldl_cons, List.foldl_nil, List.nil_append]
    rw [show (pyMT42 ()).1 = 6394267984578837 / 10000000000000000 from rfl]
    rw [hw]
  refine ⟨⟨by norm_num, by norm_num⟩, hlist, ?_⟩
  intro hall
  obtain ⟨h1, _⟩ := hall (("A", "B"), 0)
    (by rw [hlist]; exact List.mem_singleton_self _)
  norm_num at h1

/-- Witness for the amended C8: range `[2, 3]`, constant draw `1 / 2`; the
single edge's weight satisfies the full invariant. -/
theorem C8_witness :
    ∃ wv, (add_random_weights (fun _ => ()) pyHalf () edges1 2 3 42).1 =
        [(("A", "B"), wv)] ∧
      (2 : ℚ) ≤ wv ∧ wv ≤ 3 ∧ 0 < wv ∧ round2 wv = wv := by
  refine ⟨round2 (uniform 2 3 (1 / 2)), rfl, ?_⟩
  exact C8_weights_in_range (fun _ => ()) pyHalf () edges1 2 3 42
    (fun _ => ⟨by norm_num [pyHalf], by norm_num [pyHalf]⟩)
    ⟨200, by norm_num⟩ ⟨300, by norm_num⟩ (by norm_num) (by norm_num)
    (("A", "B"), round2 (uniform 2 3 (1 / 2)))
    (List.mem_singleton_self _)

end UBahn
